import Mathlib

/-!
Shallow embedding of the extract tool of `packages/core/src/tools/extract.ts`:
language detection, the six regex-driven element extractors, the output
formatters and the orchestrator's `execute` control flow.  Strings are
modelled as `List Char`; each JavaScript regular expression of the source is
transcribed literally into a small regex AST (`RE`) whose matching semantics
(`reFind`) model JavaScript's leftmost match with greedy/lazy backtracking
and capture groups.  All definitions are executable.
-/

/-- Text is modelled as a list of characters (a JavaScript string). -/
abbrev Line := List Char

/-- JavaScript whitespace as used by `String.prototype.trim` (ASCII part:
space, tab, line feed, carriage return, vertical tab, form feed; the
Unicode space classes do not occur in these claims). -/
def jsWs (c : Char) : Bool :=
  c = ' ' || c = '\t' || c = '\n' || c = '\r' || c = '\x0b' || c = '\x0c'

/-- JavaScript `String.prototype.trim`: strip leading and trailing whitespace. -/
def trim (l : Line) : Line :=
  ((l.dropWhile jsWs).reverse.dropWhile jsWs).reverse

/-- JavaScript `content.split('\n')`: split at every line feed; the result is
never empty (splitting the empty string yields one empty piece). -/
def splitNl : Line → List Line
  | [] => [[]]
  | c :: rest =>
    if c = '\n' then [] :: splitNl rest
    else
      match splitNl rest with
      | l :: ls => (c :: l) :: ls
      | [] => [[c]]

/-- Join lines with a line feed separator (left inverse of `splitNl` on
newline-free lines; used to build concrete file contents). -/
def joinNl : List Line → Line
  | [] => []
  | [l] => l
  | l :: ls => l ++ '\n' :: joinNl ls

/-- `w` occurs as a contiguous substring of `s`. -/
def containsSub (w s : Line) : Bool :=
  w.isPrefixOf s ||
    match s with
    | [] => false
    | _ :: r => containsSub w r

/-- Capture groups of one regex match attempt: group index paired with the
captured text; a later entry for the same index is shadowed by an earlier
one (`setCap` prepends), an absent index is JavaScript `undefined`. -/
abbrev Caps := List (Nat × Line)

/-- Record that group `i` captured `v` (overwriting semantics). -/
def setCap (cp : Caps) (i : Nat) (v : Line) : Caps := (i, v) :: cp

/-- JavaScript `match[i] || ''`-style access: the captured text of group `i`,
with `undefined` and the empty capture both reading as `[]` (both are falsy
everywhere the source consults a group). -/
def jsGet (cp : Caps) (i : Nat) : Line :=
  match cp.find? (fun p => p.1 = i) with
  | some p => p.2
  | none => []

/-- Regex AST.  Quantifiers are restricted to single-character classes, which
covers every pattern of the source file (each `*`, `+`, `*?` there ranges
over a character class), so matching is structurally terminating. -/
inductive RE where
  /-- Empty pattern. -/
  | eps : RE
  /-- A literal character. -/
  | lit (c : Char) : RE
  /-- A character class such as `[a-zA-Z_$]`, `\s`, `\w`, `.` or `[^)]`. -/
  | cls (p : Char → Bool) : RE
  /-- Concatenation. -/
  | cat (a b : RE) : RE
  /-- Alternation, left alternative preferred (JavaScript `a|b`). -/
  | alt (a b : RE) : RE
  /-- Greedy star over a character class (`c*`). -/
  | starC (p : Char → Bool) : RE
  /-- Lazy star over a character class (`c*?`). -/
  | starL (p : Char → Bool) : RE
  /-- Greedy plus over a character class (`c+`). -/
  | plusC (p : Char → Bool) : RE
  /-- Greedy option (`r?`): matching preferred over skipping. -/
  | opt (r : RE) : RE
  /-- Capture group number `i`. -/
  | grp (i : Nat) (r : RE) : RE
  /-- Word boundary `\b`. -/
  | wb : RE
  /-- Start-of-input anchor `^` (no multiline flag in the source). -/
  | bol : RE

/-- All ways a greedy class-star can split the input: consume a maximal run
first (longest split first, matching greedy backtracking priority).  Each
entry is (previous character after consumption, remaining input). -/
def starSplits (p : Char → Bool) (pv : Option Char) (s : Line) :
    List (Option Char × Line) :=
  match s with
  | [] => [(pv, [])]
  | a :: r =>
    if p a then starSplits p (some a) r ++ [(pv, a :: r)]
    else [(pv, a :: r)]

/-- All ways a lazy class-star can split the input (shortest split first). -/
def starSplitsL (p : Char → Bool) (pv : Option Char) (s : Line) :
    List (Option Char × Line) :=
  match s with
  | [] => [(pv, [])]
  | a :: r =>
    if p a then (pv, a :: r) :: starSplitsL p (some a) r
    else [(pv, a :: r)]

/-- JavaScript `\w` (ASCII word character). -/
def wChar (c : Char) : Bool := c.isAlpha || c.isDigit || c = '_'

/-- Word boundary test between the previous character and the next one. -/
def wordB (pv nx : Option Char) : Bool :=
  (match pv with | some c => wChar c | none => false) !=
    (match nx with | some c => wChar c | none => false)

/-- Backtracking matcher: all suffix states reachable by matching `r` at the
current position, in JavaScript priority order (head of the list = the state
the engine commits to).  A state is (previous character, remaining input,
captures). -/
def mat : RE → Option Char → Line → Caps → List (Option Char × Line × Caps)
  | .eps, pv, s, cp => [(pv, s, cp)]
  | .lit c, _, s, cp =>
    match s with
    | [] => []
    | a :: r => if a = c then [(some a, r, cp)] else []
  | .cls p, _, s, cp =>
    match s with
    | [] => []
    | a :: r => if p a then [(some a, r, cp)] else []
  | .cat a b, pv, s, cp =>
    (mat a pv s cp).flatMap fun (pv2, s2, cp2) => mat b pv2 s2 cp2
  | .alt a b, pv, s, cp => mat a pv s cp ++ mat b pv s cp
  | .starC p, pv, s, cp => (starSplits p pv s).map fun (pv2, s2) => (pv2, s2, cp)
  | .starL p, pv, s, cp => (starSplitsL p pv s).map fun (pv2, s2) => (pv2, s2, cp)
  | .plusC p, _, s, cp =>
    (match s with
     | [] => []
     | a :: r => if p a then starSplits p (some a) r else []).map
      fun (pv2, s2) => (pv2, s2, cp)
  | .opt r, pv, s, cp => mat r pv s cp ++ [(pv, s, cp)]
  | .grp i r, pv, s, cp =>
    (mat r pv s cp).map fun (pv2, s2, cp2) =>
      (pv2, s2, setCap cp2 i (s.take (s.length - s2.length)))
  | .wb, pv, s, cp => if wordB pv s.head? then [(pv, s, cp)] else []
  | .bol, pv, s, cp => match pv with | none => [(pv, s, cp)] | some _ => []

/-- The match attempt at the current position: the captures of the first
(highest-priority) way `r` matches here, if any. -/
def reMatchAt (r : RE) (pv : Option Char) (s : Line) : Option Caps :=
  match mat r pv s [] with
  | [] => none
  | (_, _, cp) :: _ => some cp

/-- Leftmost search: try the current position, else advance one character
(JavaScript `string.match(regex)` without the `g` flag). -/
def reFindGo (r : RE) (pv : Option Char) : Line → Option Caps
  | [] => reMatchAt r pv []
  | c :: rest =>
    match reMatchAt r pv (c :: rest) with
    | some cp => some cp
    | none => reFindGo r (some c) rest

/-- JavaScript `line.match(re)`: captures of the leftmost match, if any. -/
def reFind (r : RE) (line : Line) : Option Caps :=
  reFindGo r none line

/-- The inner pattern loop of the stateless extractors: test the patterns in
declared order and commit to the first one that matches the line (the
source's `for (const pattern of patterns) { ... break }`). -/
def firstMatch (pats : List RE) (line : Line) : Option Caps :=
  match pats with
  | [] => none
  | p :: ps =>
    match reFind p line with
    | some cp => some cp
    | none => firstMatch ps line

/-- Concatenation of regexes (desugars a pattern written as a sequence). -/
def seqRE (l : List RE) : RE := l.foldr .cat .eps

/-- The literal characters of `w`, then `r` (a regex with a literal prefix). -/
def strThen (w : Line) (r : RE) : RE := w.foldr (fun c acc => .cat (.lit c) acc) r

/-- A regex matching the literal string `w`. -/
def strRE (w : Line) : RE := strThen w .eps

/-- JavaScript `\s` (ASCII part: the whitespace the source's lines contain). -/
def sChar (c : Char) : Bool := jsWs c

/-- JavaScript `.` without the `s` flag: any character but a line terminator. -/
def dotC (c : Char) : Bool := !(c = '\n' || c = '\r')

/-- JavaScript `.` with the `s` flag: any character. -/
def dotAllC (_ : Char) : Bool := true

/-- Character class `[a-zA-Z_$]` (JavaScript identifier start, as written). -/
def idStart (c : Char) : Bool := c.isAlpha || c = '_' || c = '$'

/-- Character class `[a-zA-Z0-9_$]`. -/
def idChar (c : Char) : Bool := c.isAlpha || c.isDigit || c = '_' || c = '$'

/-- Character class `[a-zA-Z_]` (Python/Go identifier start, as written). -/
def pidStart (c : Char) : Bool := c.isAlpha || c = '_'

/-- Character class `[a-zA-Z0-9_]`. -/
def pidChar (c : Char) : Bool := c.isAlpha || c.isDigit || c = '_'

/-- Character class `[a-zA-Z0-9_.]` (Python module path character). -/
def pmodChar (c : Char) : Bool := c.isAlpha || c.isDigit || c = '_' || c = '.'

/-- Character class `[a-zA-Z0-9_.*]` (Java import path character). -/
def jmodChar (c : Char) : Bool := c.isAlpha || c.isDigit || c = '_' || c = '.' || c = '*'

/-- Character class `['"]` (either quote). -/
def quoteC (c : Char) : Bool := c = '\'' || c = '"'

/-- Character class `[^)]`. -/
def notRPar (c : Char) : Bool := !(c = ')')

/-- Character class `[^}]`. -/
def notRBrace (c : Char) : Bool := !(c = '\x7d')

/-- `([a-zA-Z_$][a-zA-Z0-9_$]*)` as capture group `i`. -/
def grpId (i : Nat) : RE := .grp i (.cat (.cls idStart) (.starC idChar))

/-- `([a-zA-Z_][a-zA-Z0-9_]*)` as capture group `i`. -/
def grpPid (i : Nat) : RE := .grp i (.cat (.cls pidStart) (.starC pidChar))

/-- `\(` `[^)]*` `\)` — a parenthesised parameter list. -/
def parens : RE := seqRE [.lit '(', .starC notRPar, .lit ')']

/-- Three single quotes — a Python triple-quote delimiter. -/
def tq1 : Line := ['\'', '\'', '\'']

/-- Three double quotes — the other Python triple-quote delimiter. -/
def tq2 : Line := ['"', '"', '"']

/-- The closing marker `*/`. -/
def slashClose : Line := ['*', '/']

/-- Regex `\/\/(.*)` — the single-line comment pattern for javascript,
typescript, java and go. -/
def reSingleSlash : RE := strThen ['/', '/'] (.grp 1 (.starC dotC))

/-- Regex `\/\*(.*)` — the multi-line comment start pattern for javascript,
typescript, java and go. -/
def reStartSlash : RE := strThen ['/', '*'] (.grp 1 (.starC dotC))

/-- Regex `(.*?)\*\/` — the multi-line comment end pattern for javascript,
typescript, java and go. -/
def reEndSlash : RE := .cat (.grp 1 (.starL dotC)) (strRE slashClose)

/-- Regex `#(.*)` — the Python single-line comment pattern. -/
def reSinglePy : RE := strThen ['#'] (.grp 1 (.starC dotC))

/-- Regex `('''|""")(.*)` — the Python multi-line comment start pattern
(group 1 is the delimiter, group 2 the rest of the line). -/
def reStartPy : RE :=
  .cat (.grp 1 (.alt (strRE tq1) (strRE tq2))) (.grp 2 (.starC dotC))

/-- Regex `(.*?)('''|""")` — the Python multi-line comment end pattern. -/
def reEndPy : RE :=
  .cat (.grp 1 (.starL dotC)) (.grp 2 (.alt (strRE tq1) (strRE tq2)))

/-- The `(singleLineComment, multiLineCommentStart, multiLineCommentEnd)`
regexes assigned by `extractComments`' language switch; `none` for the
default branch (which returns an empty list). -/
def commentPatterns (language : String) : Option (RE × RE × RE) :=
  match language with
  | "javascript" => some (reSingleSlash, reStartSlash, reEndSlash)
  | "typescript" => some (reSingleSlash, reStartSlash, reEndSlash)
  | "python" => some (reSinglePy, reStartPy, reEndPy)
  | "java" => some (reSingleSlash, reStartSlash, reEndSlash)
  | "go" => some (reSingleSlash, reStartSlash, reEndSlash)
  | _ => none

/-- The function patterns of `extractFunctions` for javascript/typescript, in
declared order:
`function\s+([a-zA-Z_$][a-zA-Z0-9_$]*)\s*\([^)]*\)\s*\{`,
`([a-zA-Z_$][a-zA-Z0-9_$]*)\s*=\s*function\s*\([^)]*\)\s*\{`,
`([a-zA-Z_$][a-zA-Z0-9_$]*)\s*=\s*\([^)]*\)\s*=>`,
`([a-zA-Z_$][a-zA-Z0-9_$]*)\s*\([^)]*\)\s*\{`,
`\b([a-zA-Z_$][a-zA-Z0-9_$]*)\s*:\s*function\s*\([^)]*\)\s*\{`. -/
def jsFunctionPats : List RE :=
  [ strThen "function".data
      (seqRE [.plusC sChar, grpId 1, .starC sChar, parens, .starC sChar, .lit '\x7b']),
    seqRE [grpId 1, .starC sChar, .lit '=', .starC sChar,
      strThen "function".data
        (seqRE [.starC sChar, parens, .starC sChar, .lit '\x7b'])],
    seqRE [grpId 1, .starC sChar, .lit '=', .starC sChar, parens, .starC sChar,
      .lit '=', .lit '>'],
    seqRE [grpId 1, .starC sChar, parens, .starC sChar, .lit '\x7b'],
    seqRE [.wb, grpId 1, .starC sChar, .lit ':', .starC sChar,
      strThen "function".data
        (seqRE [.starC sChar, parens, .starC sChar, .lit '\x7b'])] ]

/-- The Python function pattern `def\s+([a-zA-Z_][a-zA-Z0-9_]*)\s*\([^)]*\)\s*:`. -/
def pyFunctionPats : List RE :=
  [ strThen "def".data
      (seqRE [.plusC sChar, grpPid 1, .starC sChar, parens, .starC sChar, .lit ':']) ]

/-- The Java method pattern
`(public|private|protected)?\s*(static)?\s*\w+\s+([a-zA-Z_$][a-zA-Z0-9_$]*)\s*\([^)]*\)\s*\{`. -/
def javaFunctionPats : List RE :=
  [ seqRE [.opt (.grp 1 (.alt (strRE "public".data)
        (.alt (strRE "private".data) (strRE "protected".data)))),
      .starC sChar, .opt (.grp 2 (strRE "static".data)), .starC sChar,
      .plusC wChar, .plusC sChar, grpId 3, .starC sChar, parens, .starC sChar,
      .lit '\x7b'] ]

/-- The Go function pattern `func\s+([a-zA-Z_][a-zA-Z0-9_]*)\s*\([^)]*\)\s*\w*`. -/
def goFunctionPats : List RE :=
  [ strThen "func".data
      (seqRE [.plusC sChar, grpPid 1, .starC sChar, parens, .starC sChar,
        .starC wChar]) ]

/-- `extractFunctions`' language switch over pattern lists; `none` for the
default branch. -/
def functionPatterns (language : String) : Option (List RE) :=
  match language with
  | "javascript" => some jsFunctionPats
  | "typescript" => some jsFunctionPats
  | "python" => some pyFunctionPats
  | "java" => some javaFunctionPats
  | "go" => some goFunctionPats
  | _ => none

/-- `extractClasses`' language switch over pattern lists:
javascript/typescript `class\s+([a-zA-Z_$][a-zA-Z0-9_$]*)`;
python `class\s+([a-zA-Z_][a-zA-Z0-9_]*)\s*\(?.*\)?\s*:`;
java `(public|private)?\s*class\s+([a-zA-Z_$][a-zA-Z0-9_$]*)`;
go `type\s+([a-zA-Z_][a-zA-Z0-9_]*)\s+struct\s*\{`. -/
def classPatterns (language : String) : Option (List RE) :=
  match language with
  | "javascript" => some [strThen "class".data (.cat (.plusC sChar) (grpId 1))]
  | "typescript" => some [strThen "class".data (.cat (.plusC sChar) (grpId 1))]
  | "python" => some [strThen "class".data
      (seqRE [.plusC sChar, grpPid 1, .starC sChar, .opt (.lit '('),
        .starC dotC, .opt (.lit ')'), .starC sChar, .lit ':'])]
  | "java" => some [seqRE [.opt (.grp 1 (.alt (strRE "public".data)
        (strRE "private".data))), .starC sChar,
      strThen "class".data (.cat (.plusC sChar) (grpId 2))]]
  | "go" => some [strThen "type".data
      (seqRE [.plusC sChar, grpPid 1, .plusC sChar, strRE "struct".data,
        .starC sChar, .lit '\x7b'])]
  | _ => none

/-- The javascript/typescript import patterns, in declared order:
`import\s+.*from\s+['"](.*)['"]`, `import\s+['"](.*)['"]`,
`export\s+(default\s+)?(class|function|const|let|var)\s+([a-zA-Z_$][a-zA-Z0-9_$]*)`,
`export\s+{.*}`, `require\(['"](.*)['"]\)`. -/
def jsImportPats : List RE :=
  [ strThen "import".data
      (seqRE [.plusC sChar, .starC dotC, strRE "from".data, .plusC sChar,
        .cls quoteC, .grp 1 (.starC dotC), .cls quoteC]),
    strThen "import".data
      (seqRE [.plusC sChar, .cls quoteC, .grp 1 (.starC dotC), .cls quoteC]),
    strThen "export".data
      (seqRE [.plusC sChar,
        .opt (.grp 1 (.cat (strRE "default".data) (.plusC sChar))),
        .grp 2 (.alt (strRE "class".data) (.alt (strRE "function".data)
          (.alt (strRE "const".data) (.alt (strRE "let".data)
            (strRE "var".data))))),
        .plusC sChar, grpId 3]),
    strThen "export".data
      (seqRE [.plusC sChar, .lit '\x7b', .starC dotC, .lit '\x7d']),
    strThen "require".data
      (seqRE [.lit '(', .cls quoteC, .grp 1 (.starC dotC), .cls quoteC,
        .lit ')']) ]

/-- The Go import patterns: `import\s+['"](.*)['"]` and the `/s`-flagged
`import\s+\([^)]*\)` (the flag only affects `.`, which the second pattern
does not use). -/
def goImportPats : List RE :=
  [ strThen "import".data
      (seqRE [.plusC sChar, .cls quoteC, .grp 1 (.starC dotC), .cls quoteC]),
    strThen "import".data (seqRE [.plusC sChar, parens]) ]

/-- `extractImports`' language switch over pattern lists:
python `import\s+([a-zA-Z_][a-zA-Z0-9_.]*)` and
`from\s+([a-zA-Z_][a-zA-Z0-9_.]*)\s+import\s+.*`;
java `import\s+([a-zA-Z0-9_.*]+)`. -/
def importPatterns (language : String) : Option (List RE) :=
  match language with
  | "javascript" => some jsImportPats
  | "typescript" => some jsImportPats
  | "python" => some
      [ strThen "import".data
          (.cat (.plusC sChar) (.grp 1 (.cat (.cls pidStart) (.starC pmodChar)))),
        strThen "from".data
          (seqRE [.plusC sChar, .grp 1 (.cat (.cls pidStart) (.starC pmodChar)),
            .plusC sChar, strRE "import".data, .plusC sChar, .starC dotC]) ]
  | "java" => some
      [ strThen "import".data (.cat (.plusC sChar) (.grp 1 (.plusC jmodChar))) ]
  | "go" => some goImportPats
  | _ => none

/-- `extractVariables`' language switch over pattern lists:
javascript/typescript `(const|let|var)\s+([a-zA-Z_$][a-zA-Z0-9_$]*)`;
python `^([a-zA-Z_][a-zA-Z0-9_]*)\s*=`;
java `(final)?\s*(public|private|protected)?\s*\w+\s+([a-zA-Z_$][a-zA-Z0-9_$]*)\s*(=|;)`;
go `(var|const)\s+([a-zA-Z_][a-zA-Z0-9_]*)` and `([a-zA-Z_][a-zA-Z0-9_]*)\s*:=`. -/
def variablePatterns (language : String) : Option (List RE) :=
  match language with
  | "javascript" => some [seqRE [.grp 1 (.alt (strRE "const".data)
      (.alt (strRE "let".data) (strRE "var".data))), .plusC sChar, grpId 2]]
  | "typescript" => some [seqRE [.grp 1 (.alt (strRE "const".data)
      (.alt (strRE "let".data) (strRE "var".data))), .plusC sChar, grpId 2]]
  | "python" => some [seqRE [.bol, grpPid 1, .starC sChar, .lit '=']]
  | "java" => some [seqRE [.opt (.grp 1 (strRE "final".data)), .starC sChar,
      .opt (.grp 2 (.alt (strRE "public".data) (.alt (strRE "private".data)
        (strRE "protected".data)))), .starC sChar, .plusC wChar, .plusC sChar,
      grpId 3, .starC sChar, .grp 4 (.alt (.lit '=') (.lit ';'))]]
  | "go" => some [seqRE [.grp 1 (.alt (strRE "var".data) (strRE "const".data)),
      .plusC sChar, grpPid 2],
      seqRE [grpPid 1, .starC sChar, .lit ':', .lit '=']]
  | _ => none

/-- `extractTypes`' language switch over pattern lists:
javascript `@typedef\s+\{[^}]+\}\s+([a-zA-Z_$][a-zA-Z0-9_$]*)` and
`@param\s+\{[^}]+\}\s+([a-zA-Z_$][a-zA-Z0-9_$]*)`;
typescript `interface\s+(...)`, `type\s+(...)\s*=`, `enum\s+(...)`;
python `class\s+([a-zA-Z_][a-zA-Z0-9_]*)\s*\(?.*\)?\s*:`,
`from\s+typing\s+import\s+.*`, `import\s+typing`;
java `interface\s+(...)`, `enum\s+(...)`;
go `type\s+([a-zA-Z_][a-zA-Z0-9_]*)\s+(interface|struct)`. -/
def typePatterns (language : String) : Option (List RE) :=
  match language with
  | "javascript" => some
      [ seqRE [.lit '@', strRE "typedef".data, .plusC sChar, .lit '\x7b',
          .plusC notRBrace, .lit '\x7d', .plusC sChar, grpId 1],
        seqRE [.lit '@', strRE "param".data, .plusC sChar, .lit '\x7b',
          .plusC notRBrace, .lit '\x7d', .plusC sChar, grpId 1] ]
  | "typescript" => some
      [ strThen "interface".data (.cat (.plusC sChar) (grpId 1)),
        strThen "type".data
          (seqRE [.plusC sChar, grpId 1, .starC sChar, .lit '=']),
        strThen "enum".data (.cat (.plusC sChar) (grpId 1)) ]
  | "python" => some
      [ strThen "class".data
          (seqRE [.plusC sChar, grpPid 1, .starC sChar, .opt (.lit '('),
            .starC dotC, .opt (.lit ')'), .starC sChar, .lit ':']),
        strThen "from".data
          (seqRE [.plusC sChar, strRE "typing".data, .plusC sChar,
            strRE "import".data, .plusC sChar, .starC dotC]),
        strThen "import".data (.cat (.plusC sChar) (strRE "typing".data)) ]
  | "java" => some
      [ strThen "interface".data (.cat (.plusC sChar) (grpId 1)),
        strThen "enum".data (.cat (.plusC sChar) (grpId 1)) ]
  | "go" => some
      [ strThen "type".data
          (seqRE [.plusC sChar, grpPid 1, .plusC sChar,
            .grp 2 (.alt (strRE "interface".data) (strRE "struct".data))]) ]
  | _ => none

/-- One extracted element (`ExtractedElement` of the source; the optional
index-signature extras are never used). -/
structure ExtractedElement where
  type : String
  name : Line
  line : Nat
  content : Line
deriving DecidableEq, Repr

/-- The interpolated name `Comment at line ${n}`. -/
def commentName (n : Nat) : Line := "Comment at line ".data ++ (Nat.repr n).data

/-- A `single-line-comment` element as pushed by `extractComments`. -/
def mkSingle (n : Nat) (content : Line) : ExtractedElement :=
  { type := "single-line-comment", name := commentName n, line := n,
    content := content }

/-- A `multi-line-comment` element as pushed by `extractComments`. -/
def mkMulti (startLine : Nat) (content : Line) : ExtractedElement :=
  { type := "multi-line-comment", name := commentName startLine,
    line := startLine, content := content }

/-- The line loop of `extractComments`: `n` is the 1-based number of the next
line, `inML`/`acc`/`st` are `inMultiLineComment`, `multiLineContent` and
`multiLineStartLine`.  Inside an open block every line is appended to the
accumulator (with a `\n` separator) and only the end pattern is consulted;
outside, the single-line pattern is consulted first and then the start
pattern, which may also close on the same line. -/
def commentScan (sl ms me : RE) :
    List Line → Nat → Bool → Line → Nat → List ExtractedElement
  | [], _, _, _, _ => []
  | line :: rest, n, true, acc, st =>
    let acc2 := acc ++ '\n' :: line
    if (reFind me line).isSome then
      mkMulti st acc2 :: commentScan sl ms me rest (n + 1) false [] st
    else
      commentScan sl ms me rest (n + 1) true acc2 st
  | line :: rest, n, false, acc, st =>
    let singles : List ExtractedElement :=
      match reFind sl line with
      | some cp => [mkSingle n (trim (jsGet cp 1))]
      | none => []
    match reFind ms line with
    | some cp =>
      if (reFind me line).isSome then
        singles ++ mkMulti n (jsGet cp 1) ::
          commentScan sl ms me rest (n + 1) false [] n
      else
        singles ++ commentScan sl ms me rest (n + 1) true (jsGet cp 1) n
    | none => singles ++ commentScan sl ms me rest (n + 1) false acc st

/-- `extractComments(content, language)`. -/
def extractComments (content : Line) (language : String) :
    List ExtractedElement :=
  match commentPatterns language with
  | none => []
  | some (sl, ms, me) => commentScan sl ms me (splitNl content) 1 false [] 0

/-- The outer line loop shared by the five stateless extractors: apply the
per-line step to each line with its 1-based number, collecting at most one
element per line. -/
def lineScan (f : Line → Nat → Option ExtractedElement) :
    List Line → Nat → List ExtractedElement
  | [], _ => []
  | line :: rest, n =>
    match f line n with
    | some e => e :: lineScan f rest (n + 1)
    | none => lineScan f rest (n + 1)

/-- The per-line body of `extractFunctions`: first matching pattern, then the
language-specific capture-group name derivation; an element is pushed only
when the derived name is non-empty. -/
def functionStep (language : String) (pats : List RE) (line : Line) (n : Nat) :
    Option ExtractedElement :=
  match firstMatch pats line with
  | none => none
  | some cp =>
    let functionName : Line :=
      if language = "javascript" || language = "typescript" then
        if jsGet cp 1 ≠ [] ∧ jsGet cp 1 ≠ "function".data then jsGet cp 1
        else if jsGet cp 2 ≠ [] then jsGet cp 2
        else if jsGet cp 3 ≠ [] then jsGet cp 3
        else []
      else if language = "python" || language = "go" then jsGet cp 1
      else if language = "java" then jsGet cp 3
      else []
    if functionName ≠ [] then
      some { type := "function", name := functionName, line := n,
             content := trim line }
    else none

/-- `extractFunctions(content, language)`. -/
def extractFunctions (content : Line) (language : String) :
    List ExtractedElement :=
  match functionPatterns language with
  | none => []
  | some pats => lineScan (functionStep language pats) (splitNl content) 1

/-- The per-line body of `extractClasses`: `className = match[1] || match[2]`
for javascript/typescript/python/java, `match[1]` for go. -/
def classStep (language : String) (pats : List RE) (line : Line) (n : Nat) :
    Option ExtractedElement :=
  match firstMatch pats line with
  | none => none
  | some cp =>
    let className : Line :=
      if language = "javascript" || language = "typescript" ||
          language = "python" || language = "java" then
        if jsGet cp 1 ≠ [] then jsGet cp 1 else jsGet cp 2
      else if language = "go" then jsGet cp 1
      else []
    if className ≠ [] then
      some { type := "class", name := className, line := n,
             content := trim line }
    else none

/-- `extractClasses(content, language)`. -/
def extractClasses (content : Line) (language : String) :
    List ExtractedElement :=
  match classPatterns language with
  | none => []
  | some pats => lineScan (classStep language pats) (splitNl content) 1

/-- The per-line body of `extractImports`: `match[1]`, else `match[3]`, else
the trimmed line; an element is always pushed when a pattern matched. -/
def importStep (pats : List RE) (line : Line) (n : Nat) :
    Option ExtractedElement :=
  match firstMatch pats line with
  | none => none
  | some cp =>
    let importName : Line :=
      if jsGet cp 1 ≠ [] then jsGet cp 1
      else if jsGet cp 3 ≠ [] then jsGet cp 3
      else []
    let importName : Line := if importName = [] then trim line else importName
    some { type := "import", name := importName, line := n,
           content := trim line }

/-- `extractImports(content, language)`. -/
def extractImports (content : Line) (language : String) :
    List ExtractedElement :=
  match importPatterns language with
  | none => []
  | some pats => lineScan (importStep pats) (splitNl content) 1

/-- The keyword skip of `extractVariables`: lines whose trimmed text starts
with `import`, `function`, `class` or `export` are skipped before pattern
testing. -/
def variableSkip (line : Line) : Bool :=
  ("import".data).isPrefixOf (trim line) ||
    ("function".data).isPrefixOf (trim line) ||
    ("class".data).isPrefixOf (trim line) ||
    ("export".data).isPrefixOf (trim line)

/-- The per-line body of `extractVariables`. -/
def variableStep (language : String) (pats : List RE) (line : Line) (n : Nat) :
    Option ExtractedElement :=
  if variableSkip line then none
  else
    match firstMatch pats line with
    | none => none
    | some cp =>
      let variableName : Line :=
        if language = "javascript" || language = "typescript" then jsGet cp 2
        else if language = "python" || language = "go" then
          if jsGet cp 2 ≠ [] then jsGet cp 2 else jsGet cp 1
        else if language = "java" then jsGet cp 3
        else []
      if variableName ≠ [] then
        some { type := "variable", name := variableName, line := n,
               content := trim line }
      else none

/-- `extractVariables(content, language)`. -/
def extractVariables (content : Line) (language : String) :
    List ExtractedElement :=
  match variablePatterns language with
  | none => []
  | some pats => lineScan (variableStep language pats) (splitNl content) 1

/-- The per-line body of `extractTypes`: `match[1]` if populated, else the
trimmed line; pushed when non-empty. -/
def typeStep (pats : List RE) (line : Line) (n : Nat) :
    Option ExtractedElement :=
  match firstMatch pats line with
  | none => none
  | some cp =>
    let typeName : Line := if jsGet cp 1 ≠ [] then jsGet cp 1 else trim line
    if typeName ≠ [] then
      some { type := "type", name := typeName, line := n,
             content := trim line }
    else none

/-- `extractTypes(content, language)`. -/
def extractTypes (content : Line) (language : String) :
    List ExtractedElement :=
  match typePatterns language with
  | none => []
  | some pats => lineScan (typeStep pats) (splitNl content) 1

/-- The `switch (this.params.type)` of `execute`, dispatching to the matching
extractor (default: no elements). -/
def extractByType (t : String) (content : Line) (language : String) :
    List ExtractedElement :=
  if t = "comments" then extractComments content language
  else if t = "functions" then extractFunctions content language
  else if t = "classes" then extractClasses content language
  else if t = "imports" then extractImports content language
  else if t = "variables" then extractVariables content language
  else if t = "types" then extractTypes content language
  else []

/-- The five extractor kinds that follow the stateless per-line scheme. -/
def statelessTypes : List String :=
  ["functions", "classes", "imports", "variables", "types"]

/-- The piece of `l` after the last occurrence of `sep` (all of `l` when
`sep` does not occur). -/
def afterLastSep (sep : Char) (l : Line) : Line :=
  (l.reverse.takeWhile (fun c => !(c = sep))).reverse

/-- Node `path.extname` (posix): trailing slashes are ignored, the extension
runs from the last dot of the basename, and is empty when there is no dot,
when the only dot is the basename's first character (dotfiles), or for the
basename `..`. -/
def extnamePosix (p : Line) : Line :=
  let b := afterLastSep '/' ((p.reverse.dropWhile (fun c => c = '/')).reverse)
  if b = ['.', '.'] then []
  else
    let after := (b.reverse.takeWhile (fun c => !(c = '.'))).reverse
    if after.length = b.length then []
    else if b.length - after.length - 1 = 0 then []
    else '.' :: after

/-- `path.extname(filePath).toLowerCase()` (`Char.toLower` is the ASCII
lowering, which is what matters for extensions). -/
def lowerExt (p : Line) : Line := (extnamePosix p).map Char.toLower

/-- `detectLanguage(filePath)`: the extension switch (`null` modelled as
`none`). -/
def detectLanguage (filePath : Line) : Option String :=
  let ext := lowerExt filePath
  if ext = ".js".data then some "javascript"
  else if ext = ".jsx".data then some "javascript"
  else if ext = ".ts".data then some "typescript"
  else if ext = ".tsx".data then some "typescript"
  else if ext = ".py".data then some "python"
  else if ext = ".java".data then some "java"
  else if ext = ".go".data then some "go"
  else none

/-- The language choice of `execute`:
`this.params.language || detectLanguage(filePath) || 'javascript'`. -/
def chooseLanguage (paramLang : Option String) (filePath : Line) : String :=
  match paramLang with
  | some l => l
  | none =>
    match detectLanguage filePath with
    | some l => l
    | none => "javascript"

/-- The specification's wording of the detection mapping, for comparison
with `detectLanguage`: `.js/.jsx → javascript`, `.ts/.tsx → typescript`,
`.py → python`, `.java → java`, `.go → go`, any other extension →
unknown (`none`), the extension taken case-insensitively. -/
def detectLanguageSpec (p : Line) : Option String :=
  if lowerExt p = ".js".data ∨ lowerExt p = ".jsx".data then
    some "javascript"
  else if lowerExt p = ".ts".data ∨ lowerExt p = ".tsx".data then
    some "typescript"
  else if lowerExt p = ".py".data then some "python"
  else if lowerExt p = ".java".data then some "java"
  else if lowerExt p = ".go".data then some "go"
  else none

/-- A per-file result as accumulated by `execute`. -/
abbrev PerFileResult := Line × List ExtractedElement

/-- `formatAsList`: per file a `--- path ---` header, one line per element
and an indented content line when the content is non-empty, a blank line
after each file, the whole output trimmed. -/
def formatAsList (rel : Line → Line)
    (results : List PerFileResult) : Line :=
  trim (results.foldl (fun out r =>
    out ++ "--- ".data ++ rel r.1 ++ " ---\n".data ++
      (if r.2 = [] then "No elements found\n".data
       else r.2.foldl (fun o e =>
         o ++ e.type.data ++ ": ".data ++ e.name ++ " (line ".data ++
           (Nat.repr e.line).data ++ ")\n".data ++
           (if e.content ≠ [] then "  ".data ++ e.content ++ ['\n'] else []))
         []) ++ ['\n']) [])

/-- The `elementsByType` grouping of `formatAsTree`: JavaScript object keys
keep first-insertion order. -/
def groupByType (es : List ExtractedElement) :
    List (String × List ExtractedElement) :=
  es.foldl (fun acc e =>
    if acc.any (fun g => g.1 = e.type) then
      acc.map (fun g => if g.1 = e.type then (g.1, g.2 ++ [e]) else g)
    else acc ++ [(e.type, [e])]) []

/-- `formatAsTree`: per file the path, then each type group with its count
and the member names. -/
def formatAsTree (rel : Line → Line)
    (results : List PerFileResult) : Line :=
  trim (results.foldl (fun out r =>
    out ++ rel r.1 ++ ['\n'] ++
      (if r.2 = [] then "  (No elements found)\n".data
       else (groupByType r.2).foldl (fun o g =>
         o ++ "  ".data ++ g.1.data ++ " (".data ++
           (Nat.repr g.2.length).data ++ ")\n".data ++
           g.2.foldl (fun o2 e =>
             o2 ++ "    ".data ++ e.name ++ " (line ".data ++
               (Nat.repr e.line).data ++ ")\n".data) []) []) ++ ['\n']) [])

/-- The loop of `formatAsSummary`: running element total and the per-file
lines, in input order. -/
def summaryLoop (rel : Line → Line) (results : List PerFileResult) :
    Nat × Line :=
  results.foldl (fun (acc : Nat × Line) r =>
    (acc.1 + r.2.length,
      acc.2 ++ rel r.1 ++ ": ".data ++ (Nat.repr r.2.length).data ++
        " elements\n".data)) (0, [])

/-- `formatAsSummary`: the per-file count lines, prefixed by the
`Total elements extracted:` header, trimmed. -/
def formatAsSummary (rel : Line → Line)
    (results : List PerFileResult) : Line :=
  trim ("Total elements extracted: ".data ++
    (Nat.repr (summaryLoop rel results).1).data ++ "\n\n".data ++
    (summaryLoop rel results).2)

/-- One hexadecimal digit (for JSON control-character escapes). -/
def hexDigit (n : Nat) : Char :=
  if n < 10 then Char.ofNat (48 + n) else Char.ofNat (97 + n - 10)

/-- JSON string escaping as performed by `JSON.stringify`. -/
def jsonEscape (l : Line) : Line :=
  l.flatMap fun c =>
    if c = '"' then ['\\', '"']
    else if c = '\\' then ['\\', '\\']
    else if c = '\x08' then ['\\', 'b']
    else if c = '\x0c' then ['\\', 'f']
    else if c = '\n' then ['\\', 'n']
    else if c = '\r' then ['\\', 'r']
    else if c = '\t' then ['\\', 't']
    else if c.toNat < 32 then
      '\\' :: 'u' :: '0' :: '0' :: [hexDigit (c.toNat / 16), hexDigit (c.toNat % 16)]
    else [c]

/-- A JSON string literal. -/
def jsonStr (l : Line) : Line := '"' :: jsonEscape l ++ ['"']

/-- `ind` spaces. -/
def indentN (ind : Nat) : Line := List.replicate ind ' '

/-- A JSON object as laid out by `JSON.stringify(x, null, 2)`: `ind` is the
indentation of the closing brace, fields stand two deeper. -/
def jsonObj (ind : Nat) (fields : List (Line × Line)) : Line :=
  match fields with
  | [] => ['\x7b', '\x7d']
  | _ =>
    '\x7b' :: '\n' ::
      List.intercalate [',', '\n']
        (fields.map (fun f =>
          indentN (ind + 2) ++ jsonStr f.1 ++ ':' :: ' ' :: f.2)) ++
      '\n' :: indentN ind ++ ['\x7d']

/-- A JSON array as laid out by `JSON.stringify(x, null, 2)`. -/
def jsonArr (ind : Nat) (items : List Line) : Line :=
  match items with
  | [] => ['[', ']']
  | _ =>
    '[' :: '\n' ::
      List.intercalate [',', '\n']
        (items.map (fun it => indentN (ind + 2) ++ it)) ++
      '\n' :: indentN ind ++ [']']

/-- One element rendered by `JSON.stringify` (key insertion order: type,
name, line, content). -/
def jsonOfElement (ind : Nat) (e : ExtractedElement) : Line :=
  jsonObj ind
    [("type".data, jsonStr e.type.data), ("name".data, jsonStr e.name),
     ("line".data, (Nat.repr e.line).data), ("content".data, jsonStr e.content)]

/-- One per-file result rendered by `JSON.stringify`. -/
def jsonOfResult (ind : Nat) (r : PerFileResult) : Line :=
  jsonObj ind
    [("filePath".data, jsonStr r.1),
     ("elements".data, jsonArr (ind + 2) (r.2.map (jsonOfElement (ind + 4))))]

/-- `JSON.stringify(results, null, 2)` over the results collection. -/
def formatAsJson (results : List PerFileResult) : Line :=
  jsonArr 0 (results.map (jsonOfResult 2))

/-- `ExtractToolParams` (absent optional fields are `none`). -/
structure ExtractToolParams where
  type : String
  file : Option Line
  files : Option (List Line)
  format : Option String
  language : Option String
  includeDocstrings : Option Bool
  includeSignatures : Option Bool
deriving DecidableEq

/-- What `processSingleFileContent` hands back, as consumed by `execute`. -/
structure ReadResult where
  llmContent : Line
  returnDisplay : Line
  error : Option Line
  errorType : String

/-- The external collaborators of `execute` (config target dir, path
resolution, workspace validation, file reading, path relativisation). -/
structure Env where
  resolve : Line → Line
  isWithinWorkspace : Line → Bool
  readFile : Line → ReadResult
  makeRelative : Line → Line

/-- A `ToolResult` as far as the claims consult it: the LLM content, the
display string and the structured error (message, `ToolErrorType` member). -/
structure ToolResultModel where
  llmContent : Line
  returnDisplay : Line
  error : Option (Line × String)
deriving DecidableEq

/-- The files list of `execute`:
`this.params.files || (this.params.file ? [this.params.file] : [])`
(an empty `files` array is truthy; an empty-string `file` is falsy). -/
def filesOf (params : ExtractToolParams) : List Line :=
  match params.files with
  | some fs => fs
  | none =>
    match params.file with
    | some f => if f = [] then [] else [f]
    | none => []

/-- The no-files error result of `execute`. -/
def noFilesRes : ToolResultModel :=
  { llmContent := "No files specified for extraction".data,
    returnDisplay := "No files specified".data,
    error := some ("No files specified for extraction".data,
      "INVALID_TOOL_PARAMS") }

/-- The out-of-workspace error result of `execute` (named after the offending
parameter value). -/
def pathErrorRes (file : Line) : ToolResultModel :=
  { llmContent := "File path \"".data ++ file ++
      "\" is not within workspace".data,
    returnDisplay := "File not in workspace".data,
    error := some ("File path \"".data ++ file ++
      "\" is not within workspace".data, "PATH_NOT_IN_WORKSPACE") }

/-- The read loop of `execute`: read each resolved file in order, abort on
the first read error, otherwise extract with the chosen language.  Returns
the list of files for which a read was attempted, and either the error
result or the per-file results. -/
def readFiles (env : Env) (params : ExtractToolParams) :
    List Line → List Line × Except ToolResultModel (List PerFileResult)
  | [] => ([], .ok [])
  | fp :: rest =>
    let r := env.readFile fp
    match r.error with
    | some msg =>
      ([fp], .error
        { llmContent := r.llmContent,
          returnDisplay :=
            if r.returnDisplay = [] then "Error reading file".data
            else r.returnDisplay,
          error := some (msg, r.errorType) })
    | none =>
      let language := chooseLanguage params.language fp
      let elements := extractByType params.type r.llmContent language
      match readFiles env params rest with
      | (reads, .error e) => (fp :: reads, .error e)
      | (reads, .ok results) => (fp :: reads, .ok ((fp, elements) :: results))

/-- The format switch of `execute` (default and `'list'` both format as a
list). -/
def formatOutput (env : Env) (format : String)
    (results : List PerFileResult) : Line :=
  if format = "json" then formatAsJson results
  else if format = "tree" then formatAsTree env.makeRelative results
  else if format = "summary" then formatAsSummary env.makeRelative results
  else formatAsList env.makeRelative results

/-- `ExtractToolInvocation.execute`, with the list of attempted file reads
made explicit as a trace (second component).  Validation order follows the
source: empty file list, then workspace membership of every resolved path,
then the read-and-extract loop, then formatting. -/
def executeModel (params : ExtractToolParams) (env : Env) :
    ToolResultModel × List Line :=
  let files := filesOf params
  if files = [] then (noFilesRes, [])
  else
    match files.find? (fun f => !env.isWithinWorkspace (env.resolve f)) with
    | some f => (pathErrorRes f, [])
    | none =>
      let resolvedFiles := files.map env.resolve
      match readFiles env params resolvedFiles with
      | (reads, .error e) => (e, reads)
      | (reads, .ok results) =>
        let format := match params.format with | some f => f | none => "list"
        ({ llmContent := formatOutput env format results,
           returnDisplay := "Extracted ".data ++ params.type.data ++
             " from ".data ++ (Nat.repr resolvedFiles.length).data ++
             " file(s)".data,
           error := none }, reads)

/-- `ExtractTool.validateToolParamValues`: the message returned when neither
`file` nor `files` carries a value (`!params.file` is also true of an empty
string, `!params.files || params.files.length === 0` of an empty array). -/
def validateToolParamValues (params : ExtractToolParams) : Option Line :=
  if (params.file = none ∨ params.file = some []) ∧
      (params.files = none ∨ params.files = some []) then
    some ("Either ".data ++ '\'' :: "file".data ++ '\'' :: " or ".data ++
      '\'' :: "files".data ++ '\'' :: " parameter must be specified".data)
  else none

/-- The two comment-syntax families of the language switch: `slash` is the
shared `//`, `/*`, `*/` syntax of javascript, typescript, java and go; `py`
is Python's `#` and triple quotes. -/
inductive Fam where
  | slash : Fam
  | py : Fam
deriving DecidableEq

/-- The comment family of each supported language. -/
def famOf (language : String) : Option Fam :=
  match language with
  | "javascript" => some .slash
  | "typescript" => some .slash
  | "python" => some .py
  | "java" => some .slash
  | "go" => some .slash
  | _ => none

/-- One comment-shaped piece of a generated source text: a single-line
comment, a one-line comment block, a block spanning at least two lines
(opening text, interior lines, closing text), or a plain non-comment line. -/
inductive CItem where
  | sl (c : Line) : CItem
  | m1 (c : Line) : CItem
  | ml (h : Line) (mid : List Line) (t : Line) : CItem
  | code (c : Line) : CItem

/-- The source lines one item contributes. -/
def genLines (fam : Fam) : CItem → List Line
  | .sl c =>
    match fam with
    | .slash => ['/' :: '/' :: c]
    | .py => ['#' :: c]
  | .m1 c =>
    match fam with
    | .slash => ['/' :: '*' :: (c ++ slashClose)]
    | .py => [tq1 ++ c ++ tq1]
  | .ml h mid t =>
    match fam with
    | .slash => ('/' :: '*' :: h) :: mid ++ [t ++ slashClose]
    | .py => (tq1 ++ h) :: mid ++ [t ++ tq1]
  | .code c => [c]

/-- No line feed in the line (generated lines must survive `splitNl`). -/
def noNl (l : Line) : Bool := l.all (fun c => !(c = '\n'))

/-- Well-formedness of one generated item: the markers written by `genLines`
are the only comment markers on their lines, interior block lines do not
close the block early, and no piece holds a line terminator. -/
def wfItem (fam : Fam) : CItem → Bool
  | .sl c =>
    match fam with
    | .slash => c.all dotC && !containsSub ['/', '*'] ('/' :: '/' :: c)
    | .py =>
      c.all dotC && !containsSub tq1 ('#' :: c) && !containsSub tq2 ('#' :: c)
  | .m1 c =>
    match fam with
    | .slash =>
      c.all dotC && !containsSub ['/', '/'] ('/' :: '*' :: (c ++ slashClose))
    | .py => noNl c && !containsSub ['#'] (tq1 ++ c ++ tq1)
  | .ml h mid t =>
    match fam with
    | .slash =>
      h.all dotC && !containsSub ['/', '/'] ('/' :: '*' :: h) &&
        !containsSub slashClose ('/' :: '*' :: h) &&
        mid.all (fun m => !containsSub slashClose m && noNl m) && noNl t
    | .py =>
      noNl h && !containsSub ['#'] (tq1 ++ h) &&
        mid.all (fun m => !containsSub ['#'] m && !containsSub tq1 m &&
          !containsSub tq2 m && noNl m) &&
        noNl t && !containsSub ['#'] (t ++ tq1) && !containsSub tq2 (t ++ tq1)
  | .code c =>
    match fam with
    | .slash =>
      !containsSub ['/', '/'] c && !containsSub ['/', '*'] c && noNl c
    | .py =>
      !containsSub ['#'] c && !containsSub tq1 c && !containsSub tq2 c && noNl c

/-- The elements `extractComments` emits for one item starting at line `n`:
in the slash family a block is one element carrying the accumulated text; in
Python the end pattern also matches the opening delimiter, so a block
spanning several lines emits one element at its opening line and another at
its closing line, each carrying just the delimiter. -/
def genItemElems (fam : Fam) (n : Nat) : CItem → List ExtractedElement
  | .sl c => [mkSingle n (trim c)]
  | .m1 c =>
    match fam with
    | .slash => [mkMulti n (c ++ slashClose)]
    | .py => [mkMulti n tq1]
  | .ml h mid t =>
    match fam with
    | .slash =>
      [mkMulti n (List.foldl (fun a m => a ++ '\n' :: m) h
        (mid ++ [t ++ slashClose]))]
    | .py => [mkMulti n tq1, mkMulti (n + mid.length + 1) tq1]
  | .code _ => []

/-- The expected element list for a generated item sequence starting at line
`n`. -/
def genExpected (fam : Fam) : Nat → List CItem → List ExtractedElement
  | _, [] => []
  | n, it :: rest =>
    genItemElems fam n it ++
      genExpected fam (n + (genLines fam it).length) rest

/-- The number of single-line comments among the items. -/
def countSingles (items : List CItem) : Nat :=
  items.countP (fun it => match it with | .sl _ => true | _ => false)

/-- The number of multi-line comment blocks among the items. -/
def countMultis (items : List CItem) : Nat :=
  items.countP (fun it =>
    match it with | .m1 _ => true | .ml _ _ _ => true | _ => false)

/-- The number of blocks spanning at least two lines among the items. -/
def countSpanning (items : List CItem) : Nat :=
  items.countP (fun it => match it with | .ml _ _ _ => true | _ => false)

/-!
Theorems.  First general lemmas about substrings and the matcher, then the
lemmas about each extractor, then one theorem (with witness or
counterexample where required) per claim.
-/

@[simp] theorem strThen_nil (r : RE) : strThen [] r = r := rfl

@[simp] theorem strThen_cons (c : Char) (w : Line) (r : RE) :
    strThen (c :: w) r = .cat (.lit c) (strThen w r) := rfl

@[simp] theorem reFindGo_nil (r : RE) (pv : Option Char) :
    reFindGo r pv [] = reMatchAt r pv [] := rfl

theorem reFindGo_cons (r : RE) (pv : Option Char) (c : Char) (rest : Line) :
    reFindGo r pv (c :: rest) =
      match reMatchAt r pv (c :: rest) with
      | some cp => some cp
      | none => reFindGo r (some c) rest := rfl

theorem containsSub_of_suffix_self (w pre : Line) :
    containsSub w (pre ++ w) = true := by
  induction pre with
  | nil =>
    unfold containsSub
    simp [List.isPrefixOf_iff_prefix]
  | cons c pre ih =>
    unfold containsSub
    simp [ih]

theorem containsSub_cons_false {w : Line} {c : Char} {s : Line}
    (h : containsSub w (c :: s) = false) : containsSub w s = false := by
  unfold containsSub at h
  rcases Bool.or_eq_false_iff.mp h with ⟨_, h2⟩
  exact h2

theorem not_prefix_of_containsSub_false {w s : Line}
    (h : containsSub w s = false) : ¬ w <+: s := by
  intro hp
  unfold containsSub at h
  rcases Bool.or_eq_false_iff.mp h with ⟨h1, _⟩
  rw [← List.isPrefixOf_iff_prefix] at hp
  simp [hp] at h1

theorem containsSub_suffix_false {w s t : Line}
    (h : containsSub w s = false) (hs : t <:+ s) : ¬ w <+: t := by
  obtain ⟨pre, rfl⟩ := hs
  induction pre with
  | nil => exact not_prefix_of_containsSub_false h
  | cons c pre ih => exact ih (containsSub_cons_false h)

theorem mat_strThen_notPre {w : Line} (r : RE) {s : Line}
    (pv : Option Char) (cp : Caps) (h : ¬ w <+: s) :
    mat (strThen w r) pv s cp = [] := by
  induction w generalizing pv s with
  | nil => exact absurd List.nil_prefix h
  | cons c w ih =>
    cases s with
    | nil => rw [strThen_cons]; simp [mat]
    | cons a s' =>
      rw [strThen_cons]
      by_cases hc : a = c
      · subst hc
        have hnp : ¬ w <+: s' := fun hp => h (List.cons_prefix_cons.mpr ⟨rfl, hp⟩)
        have hstep : mat (RE.cat (RE.lit a) (strThen w r)) pv (a :: s') cp =
            mat (strThen w r) (some a) s' cp := by
          simp [mat]
        rw [hstep, ih (some a) hnp]
      · simp [mat, hc]

theorem reFindGo_strThen_none {w : Line} (r : RE) {s : Line}
    (pv : Option Char) (h : containsSub w s = false) :
    reFindGo (strThen w r) pv s = none := by
  induction s generalizing pv with
  | nil =>
    rw [reFindGo_nil]
    unfold reMatchAt
    rw [mat_strThen_notPre r pv [] (not_prefix_of_containsSub_false h)]
  | cons c s' ih =>
    rw [reFindGo_cons]
    unfold reMatchAt
    rw [mat_strThen_notPre r pv _ (not_prefix_of_containsSub_false h)]
    exact ih _ (containsSub_cons_false h)

theorem mat_strThen_prefix (w : Line) (r : RE) (rest : Line)
    (pv : Option Char) (cp : Caps) :
    ∃ pv2, mat (strThen w r) pv (w ++ rest) cp = mat r pv2 rest cp := by
  induction w generalizing pv with
  | nil => exact ⟨pv, rfl⟩
  | cons c w ih =>
    obtain ⟨pv2, hw⟩ := ih (some c)
    refine ⟨pv2, ?_⟩
    rw [List.cons_append, strThen_cons]
    have hstep : mat (RE.cat (RE.lit c) (strThen w r)) pv (c :: (w ++ rest)) cp =
        mat (strThen w r) (some c) (w ++ rest) cp := by
      simp [mat]
    rw [hstep, hw]

theorem starSplits_ne_nil (p : Char → Bool) (pv : Option Char) (s : Line) :
    ∃ pv2 s2 tl, starSplits p pv s = (pv2, s2) :: tl := by
  induction s generalizing pv with
  | nil => exact ⟨pv, [], [], rfl⟩
  | cons a s' ih =>
    by_cases hp : p a
    · obtain ⟨pv2, s2, tl, hs⟩ := ih (some a)
      exact ⟨pv2, s2, tl ++ [(pv, a :: s')], by simp [starSplits, hp, hs]⟩
    · exact ⟨pv, a :: s', [], by simp [starSplits, hp]⟩

theorem starSplits_all {p : Char → Bool} {s : Line} (pv : Option Char)
    (h : s.all p = true) :
    ∃ pv2 tl, starSplits p pv s = (pv2, ([] : Line)) :: tl := by
  induction s generalizing pv with
  | nil => exact ⟨pv, [], rfl⟩
  | cons a s' ih =>
    simp only [List.all_cons, Bool.and_eq_true] at h
    obtain ⟨pv2, tl, hs⟩ := ih (some a) h.2
    exact ⟨pv2, tl ++ [(pv, a :: s')], by simp [starSplits, h.1, hs]⟩

theorem reFindGo_marker_grp {w c : Line} (pv : Option Char)
    (hw : w ≠ []) (hc : c.all dotC = true) :
    reFindGo (strThen w (.grp 1 (.starC dotC))) pv (w ++ c) =
      some [(1, c)] := by
  obtain ⟨pv2, hm⟩ := mat_strThen_prefix w (.grp 1 (.starC dotC)) c pv []
  obtain ⟨pv3, tl, hsp⟩ := starSplits_all (p := dotC) pv2 hc
  have hmat : mat (strThen w (.grp 1 (.starC dotC))) pv (w ++ c) [] =
      (pv3, ([] : Line), setCap [] 1 c) ::
        tl.map (fun st =>
          (st.1, st.2, setCap [] 1 (c.take (c.length - st.2.length)))) := by
    rw [hm]
    simp [mat, hsp, List.take_length]
  cases w with
  | nil => exact absurd rfl hw
  | cons wc w' =>
    rw [List.cons_append] at hmat ⊢
    rw [reFindGo_cons]
    unfold reMatchAt
    rw [hmat]
    simp [setCap]

theorem containsSub_nil (w : Line) : containsSub w [] = w.isPrefixOf [] := by
  unfold containsSub
  simp

theorem containsSub_cons (w : Line) (c : Char) (s : Line) :
    containsSub w (c :: s) = (w.isPrefixOf (c :: s) || containsSub w s) := rfl

theorem containsSub_of_parts (w pre u : Line) :
    containsSub w (pre ++ w ++ u) = true := by
  induction pre with
  | nil =>
    cases hw : w ++ u with
    | nil => simp_all [containsSub_nil, List.isPrefixOf_iff_prefix]
    | cons c r =>
      rw [List.nil_append, hw, containsSub_cons, ← hw]
      simp [List.isPrefixOf_iff_prefix, List.prefix_append]
  | cons c pre ih =>
    rw [List.cons_append, List.cons_append, containsSub_cons]
    have ih' : containsSub w (pre ++ (w ++ u)) = true := by
      rw [← List.append_assoc]
      exact ih
    simp [ih']

theorem containsSub_of_suffix_pre {w t s : Line} (hs : t <:+ s)
    (hp : w <+: t) : containsSub w s = true := by
  obtain ⟨pre, rfl⟩ := hs
  obtain ⟨u, rfl⟩ := hp
  rw [← List.append_assoc]
  exact containsSub_of_parts w pre u

theorem starSplitsL_head (p : Char → Bool) (pv : Option Char) (s : Line) :
    ∃ tl, starSplitsL p pv s = (pv, s) :: tl := by
  cases s with
  | nil => exact ⟨[], rfl⟩
  | cons a r =>
    by_cases hp : p a
    · exact ⟨starSplitsL p (some a) r, by simp [starSplitsL, hp]⟩
    · exact ⟨[], by simp [starSplitsL, hp]⟩

theorem starSplitsL_suffix {p : Char → Bool} {pv : Option Char} {s : Line}
    {pv2 : Option Char} {s2 : Line}
    (h : (pv2, s2) ∈ starSplitsL p pv s) : s2 <:+ s := by
  induction s generalizing pv with
  | nil =>
    simp [starSplitsL] at h
    simp [h.2]
  | cons a r ih =>
    unfold starSplitsL at h
    by_cases hp : p a
    · simp only [hp, if_true, List.mem_cons] at h
      rcases h with h | h
      · simp [Prod.ext_iff] at h
        exact h.2 ▸ List.suffix_refl _
      · exact (ih h).trans (List.suffix_cons a r)
    · simp only [hp, if_false, List.mem_singleton] at h
      simp [Prod.ext_iff] at h
      exact h.2 ▸ List.suffix_refl _

theorem mat_cat_grp_starL (i : Nat) (p : Char → Bool) (r2 : RE)
    (pv : Option Char) (s : Line) (cp : Caps) :
    mat (.cat (.grp i (.starL p)) r2) pv s cp =
      (starSplitsL p pv s).flatMap (fun st =>
        mat r2 st.1 st.2 (setCap cp i (s.take (s.length - st.2.length)))) := by
  simp only [mat, List.map_map, List.flatMap_map]
  rfl

theorem mat_cat_grp_starC (i : Nat) (p : Char → Bool) (r2 : RE)
    (pv : Option Char) (s : Line) (cp : Caps) :
    mat (.cat (.grp i (.starC p)) r2) pv s cp =
      (starSplits p pv s).flatMap (fun st =>
        mat r2 st.1 st.2 (setCap cp i (s.take (s.length - st.2.length)))) := by
  simp only [mat, List.map_map, List.flatMap_map]
  rfl

theorem mat_endSlash_nil {s : Line} (pv : Option Char) (cp : Caps)
    (h : containsSub slashClose s = false) : mat reEndSlash pv s cp = [] := by
  rw [reEndSlash, mat_cat_grp_starL, List.flatMap_eq_nil_iff]
  rintro ⟨pv2, s2⟩ hmem
  exact mat_strThen_notPre _ _ _
    (containsSub_suffix_false h (starSplitsL_suffix hmem))

theorem reFindGo_endSlash_isSome (pv : Option Char) (s : Line) :
    (reFindGo reEndSlash pv s).isSome = containsSub slashClose s := by
  induction s generalizing pv with
  | nil =>
    rw [reFindGo_nil]
    unfold reMatchAt
    rw [mat_endSlash_nil pv [] (by decide)]
    decide
  | cons a s' ih =>
    rw [reFindGo_cons]
    by_cases hpre : slashClose <+: (a :: s')
    · obtain ⟨rest, hrest⟩ := hpre
      have hsub : containsSub slashClose (a :: s') = true := by
        rw [← hrest]
        exact containsSub_of_parts slashClose [] rest
      obtain ⟨tl, hL⟩ := starSplitsL_head dotC pv (a :: s')
      have hone : ∃ pv2 C, mat (strRE slashClose) pv (a :: s')
          (setCap [] 1 ((a :: s').take ((a :: s').length - (a :: s').length)))
            = [(pv2, rest, C)] := by
        rw [← hrest]
        obtain ⟨pv2, hm⟩ := mat_strThen_prefix slashClose .eps rest pv
          (setCap [] 1 ((slashClose ++ rest).take
            ((slashClose ++ rest).length - (slashClose ++ rest).length)))
        exact ⟨pv2, _, hm⟩
      obtain ⟨pv2, C, hone⟩ := hone
      have hmat : ∃ st tl2, mat reEndSlash pv (a :: s') [] = st :: tl2 := by
        rw [reEndSlash, mat_cat_grp_starL, hL, List.flatMap_cons]
        dsimp only
        rw [hone]
        exact ⟨_, _, rfl⟩
      obtain ⟨st, tl2, hmat2⟩ := hmat
      unfold reMatchAt
      rw [hmat2, hsub]
      rfl
    · have hpf : slashClose.isPrefixOf (a :: s') = false := by
        rw [Bool.eq_false_iff]
        intro hx
        exact hpre (List.isPrefixOf_iff_prefix.mp hx)
      rw [containsSub_cons, hpf, Bool.false_or]
      cases hra : reMatchAt reEndSlash pv (a :: s') with
      | none => simpa using ih (some a)
      | some cp =>
        have hne : mat reEndSlash pv (a :: s') [] ≠ [] := by
          intro hnil
          unfold reMatchAt at hra
          rw [hnil] at hra
          cases hra
        have hex : ∃ pv2 s2, (pv2, s2) ∈ starSplitsL dotC pv (a :: s') ∧
            slashClose <+: s2 := by
          by_contra hno
          push_neg at hno
          apply hne
          rw [reEndSlash, mat_cat_grp_starL, List.flatMap_eq_nil_iff]
          rintro ⟨pv2, s2⟩ hmem
          exact mat_strThen_notPre _ _ _ (hno pv2 s2 hmem)
        obtain ⟨pv2, s2, hmem, hp2⟩ := hex
        have hsfx : s2 <:+ a :: s' := starSplitsL_suffix hmem
        rcases List.suffix_cons_iff.mp hsfx with heq | hsfx'
        · exact absurd (heq ▸ hp2) hpre
        · simp [containsSub_of_suffix_pre hsfx' hp2]

theorem reMatchAt_none_of_mat_nil {r : RE} {pv : Option Char} {s : Line}
    (h : mat r pv s [] = []) : reMatchAt r pv s = none := by
  unfold reMatchAt
  rw [h]

theorem reMatchAt_some_of_mat_cons {r : RE} {pv : Option Char} {s : Line}
    {st : Option Char × Line × Caps} {tl : List (Option Char × Line × Caps)}
    (h : mat r pv s [] = st :: tl) : reMatchAt r pv s = some st.2.2 := by
  unfold reMatchAt
  rw [h]

theorem reFindGo_of_reMatchAt_some {r : RE} {pv : Option Char} {s : Line}
    {cp : Caps} (h : reMatchAt r pv s = some cp) :
    reFindGo r pv s = some cp := by
  cases s with
  | nil => rw [reFindGo_nil, h]
  | cons c rest => rw [reFindGo_cons, h]

theorem mat_strRE_prefix (w rest : Line) (pv : Option Char) (cp : Caps) :
    ∃ pv2, mat (strRE w) pv (w ++ rest) cp = [(pv2, rest, cp)] := by
  obtain ⟨pv2, hm⟩ := mat_strThen_prefix w .eps rest pv cp
  exact ⟨pv2, by rw [strRE, hm]; rfl⟩

theorem mat_cat_nil_left {a : RE} (b : RE) {pv : Option Char} {s : Line}
    {cp : Caps} (h : mat a pv s cp = []) : mat (.cat a b) pv s cp = [] := by
  simp only [mat, h, List.flatMap_nil]

theorem mat_grp_alt_nil (i : Nat) {A B : RE} {pv : Option Char} {s : Line}
    {cp : Caps} (hA : mat A pv s cp = []) (hB : mat B pv s cp = []) :
    mat (.grp i (.alt A B)) pv s cp = [] := by
  simp only [mat, hA, hB, List.nil_append, List.map_nil]

theorem mat_endPy_nil {s : Line} (pv : Option Char) (cp : Caps)
    (h1 : containsSub tq1 s = false) (h2 : containsSub tq2 s = false) :
    mat reEndPy pv s cp = [] := by
  rw [reEndPy, mat_cat_grp_starL, List.flatMap_eq_nil_iff]
  rintro ⟨pv2, s2⟩ hmem
  have hs2 : s2 <:+ s := starSplitsL_suffix hmem
  exact mat_grp_alt_nil 2
    (mat_strThen_notPre _ _ _ (containsSub_suffix_false h1 hs2))
    (mat_strThen_notPre _ _ _ (containsSub_suffix_false h2 hs2))

theorem mat_grp_alt_strRE_ne {w1 w2 : Line} (i : Nat) {pv : Option Char}
    {s : Line} {cp : Caps} (h : w1 <+: s ∨ w2 <+: s) :
    mat (.grp i (.alt (strRE w1) (strRE w2))) pv s cp ≠ [] := by
  simp only [mat]
  intro hnil
  rw [List.map_eq_nil_iff, List.append_eq_nil] at hnil
  rcases h with h | h
  · obtain ⟨rest, rfl⟩ := h
    obtain ⟨pv2, hm⟩ := mat_strRE_prefix w1 rest pv cp
    rw [hm] at hnil
    cases hnil.1
  · obtain ⟨rest, rfl⟩ := h
    obtain ⟨pv2, hm⟩ := mat_strRE_prefix w2 rest pv cp
    rw [hm] at hnil
    cases hnil.2

theorem reFindGo_endPy_isSome (pv : Option Char) (s : Line) :
    (reFindGo reEndPy pv s).isSome =
      (containsSub tq1 s || containsSub tq2 s) := by
  induction s generalizing pv with
  | nil =>
    rw [reFindGo_nil, reMatchAt_none_of_mat_nil
      (mat_endPy_nil pv [] (by decide) (by decide))]
    decide
  | cons a s' ih =>
    rw [reFindGo_cons]
    by_cases hpre : tq1 <+: (a :: s') ∨ tq2 <+: (a :: s')
    · have hne : mat reEndPy pv (a :: s') [] ≠ [] := by
        rw [reEndPy, mat_cat_grp_starL]
        obtain ⟨tl, hL⟩ := starSplitsL_head dotC pv (a :: s')
        rw [hL, List.flatMap_cons]
        intro hnil
        rw [List.append_eq_nil] at hnil
        exact mat_grp_alt_strRE_ne 2 hpre hnil.1
      have hsub : (containsSub tq1 (a :: s') || containsSub tq2 (a :: s')) = true := by
        rcases hpre with h | h
        · rw [containsSub_of_suffix_pre (List.suffix_refl _) h]
          rfl
        · rw [containsSub_of_suffix_pre (List.suffix_refl _) h]
          simp
      rw [hsub]
      cases hmat : mat reEndPy pv (a :: s') [] with
      | nil => exact absurd hmat hne
      | cons st tl => rw [reMatchAt_some_of_mat_cons hmat]; rfl
    · push_neg at hpre
      have hp1 : tq1.isPrefixOf (a :: s') = false := by
        rw [Bool.eq_false_iff]
        intro hx
        exact hpre.1 (List.isPrefixOf_iff_prefix.mp hx)
      have hp2 : tq2.isPrefixOf (a :: s') = false := by
        rw [Bool.eq_false_iff]
        intro hx
        exact hpre.2 (List.isPrefixOf_iff_prefix.mp hx)
      rw [containsSub_cons, containsSub_cons, hp1, hp2, Bool.false_or,
        Bool.false_or]
      cases hra : reMatchAt reEndPy pv (a :: s') with
      | none => simpa using ih (some a)
      | some cp =>
        have hne : mat reEndPy pv (a :: s') [] ≠ [] := by
          intro hnil
          rw [reMatchAt_none_of_mat_nil hnil] at hra
          cases hra
        have hex : ∃ pv2 s2, (pv2, s2) ∈ starSplitsL dotC pv (a :: s') ∧
            (tq1 <+: s2 ∨ tq2 <+: s2) := by
          by_contra hno
          push_neg at hno
          apply hne
          rw [reEndPy, mat_cat_grp_starL, List.flatMap_eq_nil_iff]
          rintro ⟨pv2, s2⟩ hmem
          have := hno pv2 s2 hmem
          exact mat_grp_alt_nil 2
            (mat_strThen_notPre _ _ _ this.1)
            (mat_strThen_notPre _ _ _ this.2)
        obtain ⟨pv2, s2, hmem, hp⟩ := hex
        have hsfx : s2 <:+ a :: s' := starSplitsL_suffix hmem
        rcases List.suffix_cons_iff.mp hsfx with heq | hsfx'
        · subst heq
          rcases hp with h | h
          · exact absurd h hpre.1
          · exact absurd h hpre.2
        · rcases hp with h | h
          · simp [containsSub_of_suffix_pre hsfx' h]
          · simp [containsSub_of_suffix_pre hsfx' h]

theorem mat_cat_eq (a b : RE) (pv : Option Char) (s : Line) (cp : Caps) :
    mat (.cat a b) pv s cp =
      (mat a pv s cp).flatMap (fun st => mat b st.1 st.2.1 st.2.2) := rfl

theorem mat_alt_eq (a b : RE) (pv : Option Char) (s : Line) (cp : Caps) :
    mat (.alt a b) pv s cp = mat a pv s cp ++ mat b pv s cp := rfl

theorem mat_grp_eq (i : Nat) (r : RE) (pv : Option Char) (s : Line)
    (cp : Caps) :
    mat (.grp i r) pv s cp = (mat r pv s cp).map (fun st =>
      (st.1, st.2.1, setCap st.2.2 i (s.take (s.length - st.2.1.length)))) := rfl

theorem mat_starC_eq (p : Char → Bool) (pv : Option Char) (s : Line)
    (cp : Caps) :
    mat (.starC p) pv s cp =
      (starSplits p pv s).map (fun st => (st.1, st.2, cp)) := rfl

theorem mat_startPy_nil {s : Line} (pv : Option Char) (cp : Caps)
    (h1 : ¬ tq1 <+: s) (h2 : ¬ tq2 <+: s) : mat reStartPy pv s cp = [] := by
  rw [reStartPy]
  exact mat_cat_nil_left _ (mat_grp_alt_nil 1
    (mat_strThen_notPre _ _ _ h1) (mat_strThen_notPre _ _ _ h2))

theorem reFindGo_startPy_none {s : Line} (pv : Option Char)
    (h1 : containsSub tq1 s = false) (h2 : containsSub tq2 s = false) :
    reFindGo reStartPy pv s = none := by
  induction s generalizing pv with
  | nil =>
    rw [reFindGo_nil]
    exact reMatchAt_none_of_mat_nil (mat_startPy_nil (s := []) pv []
      (not_prefix_of_containsSub_false h1)
      (not_prefix_of_containsSub_false h2))
  | cons a s' ih =>
    rw [reFindGo_cons, reMatchAt_none_of_mat_nil
      (mat_startPy_nil (s := a :: s') pv []
        (not_prefix_of_containsSub_false h1)
        (not_prefix_of_containsSub_false h2))]
    exact ih (some a) (containsSub_cons_false h1) (containsSub_cons_false h2)

theorem reMatchAt_startPy_tq1 (pv : Option Char) (h : Line) :
    ∃ cp, reMatchAt reStartPy pv (tq1 ++ h) = some cp ∧ jsGet cp 1 = tq1 := by
  obtain ⟨pv2, hm1⟩ := mat_strRE_prefix tq1 h pv []
  have htake : (tq1 ++ h).take ((tq1 ++ h).length - h.length) = tq1 := by
    rw [List.length_append, Nat.add_sub_cancel, List.take_left]
  obtain ⟨pv3, s3, tl3, hsp⟩ := starSplits_ne_nil dotC pv2 h
  have hmat : ∃ X tl4, mat reStartPy pv (tq1 ++ h) [] =
      (pv3, s3, setCap (setCap [] 1 tq1) 2 X) :: tl4 := by
    rw [reStartPy, mat_cat_eq, mat_grp_eq, mat_alt_eq, hm1, List.cons_append,
      List.map_cons, List.flatMap_cons]
    dsimp only
    rw [htake, mat_grp_eq, mat_starC_eq, hsp]
    exact ⟨_, _, rfl⟩
  obtain ⟨X, tl4, hmat2⟩ := hmat
  refine ⟨setCap (setCap [] 1 tq1) 2 X, reMatchAt_some_of_mat_cons hmat2, ?_⟩
  simp [jsGet, setCap]

theorem reFindGo_startPy_tq1 (pv : Option Char) (h : Line) :
    ∃ cp, reFindGo reStartPy pv (tq1 ++ h) = some cp ∧ jsGet cp 1 = tq1 := by
  obtain ⟨cp, hr, hg⟩ := reMatchAt_startPy_tq1 pv h
  exact ⟨cp, reFindGo_of_reMatchAt_some hr, hg⟩

theorem reFindGo_startPy_any {line : Line} (pv : Option Char)
    (h2 : containsSub tq2 line = false) (h1 : containsSub tq1 line = true) :
    ∃ cp, reFindGo reStartPy pv line = some cp ∧ jsGet cp 1 = tq1 := by
  induction line generalizing pv with
  | nil => rw [containsSub_nil] at h1; cases h1
  | cons a s' ih =>
    by_cases hpre : tq1 <+: (a :: s')
    · obtain ⟨rest, hrest⟩ := hpre
      rw [← hrest]
      exact reFindGo_startPy_tq1 pv rest
    · have hpre2 : ¬ tq2 <+: (a :: s') := not_prefix_of_containsSub_false h2
      rw [reFindGo_cons,
        reMatchAt_none_of_mat_nil
          (mat_startPy_nil (s := a :: s') pv [] hpre hpre2)]
      have h1' : containsSub tq1 s' = true := by
        rw [containsSub_cons] at h1
        rcases Bool.or_eq_true_iff.mp h1 with hx | hx
        · exact absurd (List.isPrefixOf_iff_prefix.mp hx) hpre
        · exact hx
      exact ih (some a) (containsSub_cons_false h2) h1'

theorem commentScan_nil (sl ms me : RE) (n : Nat) (b : Bool) (acc : Line)
    (st : Nat) : commentScan sl ms me [] n b acc st = [] := by
  cases b <;> rfl

theorem commentScan_true_eq (sl ms me : RE) (line : Line) (rest : List Line)
    (n : Nat) (acc : Line) (st : Nat) :
    commentScan sl ms me (line :: rest) n true acc st =
      if (reFind me line).isSome then
        mkMulti st (acc ++ '\n' :: line) ::
          commentScan sl ms me rest (n + 1) false [] st
      else
        commentScan sl ms me rest (n + 1) true (acc ++ '\n' :: line) st := rfl

theorem commentScan_false_eq (sl ms me : RE) (line : Line) (rest : List Line)
    (n : Nat) (acc : Line) (st : Nat) :
    commentScan sl ms me (line :: rest) n false acc st =
      (match reFind sl line with
       | some cp => [mkSingle n (trim (jsGet cp 1))]
       | none => []) ++
        match reFind ms line with
        | some cp =>
          if (reFind me line).isSome then
            mkMulti n (jsGet cp 1) ::
              commentScan sl ms me rest (n + 1) false [] n
          else
            commentScan sl ms me rest (n + 1) true (jsGet cp 1) n
        | none => commentScan sl ms me rest (n + 1) false acc st := by
  cases hsl : reFind sl line <;> cases hms : reFind ms line <;>
    simp only [commentScan, hsl, hms] <;>
    first
    | rfl
    | (split <;> rfl)

theorem commentScan_false_inv (sl ms me : RE) (lines : List Line) (n : Nat)
    (acc acc' : Line) (st st' : Nat) :
    commentScan sl ms me lines n false acc st =
      commentScan sl ms me lines n false acc' st' := by
  induction lines generalizing n with
  | nil => rfl
  | cons line rest ih =>
    rw [commentScan_false_eq, commentScan_false_eq]
    cases hms : reFind ms line
    · rw [ih]
    · rfl

theorem reFind_eq (r : RE) (line : Line) :
    reFind r line = reFindGo r none line := rfl

theorem jsGet_single (v : Line) : jsGet [(1, v)] 1 = v := by
  simp [jsGet]

theorem scan_sl_slash {c : Line} (rest : List Line) (n : Nat) (acc : Line)
    (st : Nat) (hc : c.all dotC = true)
    (hms : containsSub ['/', '*'] ('/' :: '/' :: c) = false) :
    commentScan reSingleSlash reStartSlash reEndSlash
      (('/' :: '/' :: c) :: rest) n false acc st =
      mkSingle n (trim c) ::
        commentScan reSingleSlash reStartSlash reEndSlash rest (n + 1) false
          acc st := by
  have hsl : reFind reSingleSlash ('/' :: '/' :: c) = some [(1, c)] := by
    rw [reFind_eq]
    exact reFindGo_marker_grp (w := ['/', '/']) none (by decide) hc
  have hms' : reFind reStartSlash ('/' :: '/' :: c) = none := by
    rw [reFind_eq, reStartSlash]
    exact reFindGo_strThen_none _ none hms
  rw [commentScan_false_eq, hsl, hms']
  dsimp only
  rw [jsGet_single, List.singleton_append]

theorem scan_m1_slash {c : Line} (rest : List Line) (n : Nat) (acc : Line)
    (st : Nat) (hc : c.all dotC = true)
    (hss : containsSub ['/', '/'] ('/' :: '*' :: (c ++ slashClose)) = false) :
    commentScan reSingleSlash reStartSlash reEndSlash
      (('/' :: '*' :: (c ++ slashClose)) :: rest) n false acc st =
      mkMulti n (c ++ slashClose) ::
        commentScan reSingleSlash reStartSlash reEndSlash rest (n + 1) false
          acc st := by
  have hsl : reFind reSingleSlash ('/' :: '*' :: (c ++ slashClose)) = none := by
    rw [reFind_eq, reSingleSlash]
    exact reFindGo_strThen_none _ none hss
  have hcall : (c ++ slashClose).all dotC = true := by
    rw [List.all_append, hc]
    decide
  have hms : reFind reStartSlash ('/' :: '*' :: (c ++ slashClose)) =
      some [(1, c ++ slashClose)] := by
    rw [reFind_eq]
    exact reFindGo_marker_grp (w := ['/', '*']) none (by decide) hcall
  have hme : (reFind reEndSlash ('/' :: '*' :: (c ++ slashClose))).isSome =
      true := by
    rw [reFind_eq, reFindGo_endSlash_isSome]
    have := containsSub_of_parts slashClose ('/' :: '*' :: c) []
    simpa using this
  rw [commentScan_false_eq, hsl, hms, hme]
  dsimp only
  rw [if_pos rfl, jsGet_single, List.nil_append,
    commentScan_false_inv reSingleSlash reStartSlash
      reEndSlash rest (n + 1) [] acc n st]

theorem scan_mlopen_slash {h : Line} (rest : List Line) (n : Nat) (acc : Line)
    (st : Nat) (hc : h.all dotC = true)
    (hss : containsSub ['/', '/'] ('/' :: '*' :: h) = false)
    (hcl : containsSub slashClose ('/' :: '*' :: h) = false) :
    commentScan reSingleSlash reStartSlash reEndSlash
      (('/' :: '*' :: h) :: rest) n false acc st =
      commentScan reSingleSlash reStartSlash reEndSlash rest (n + 1) true h
        n := by
  have hsl : reFind reSingleSlash ('/' :: '*' :: h) = none := by
    rw [reFind_eq, reSingleSlash]
    exact reFindGo_strThen_none _ none hss
  have hms : reFind reStartSlash ('/' :: '*' :: h) = some [(1, h)] := by
    rw [reFind_eq]
    exact reFindGo_marker_grp (w := ['/', '*']) none (by decide) hc
  have hme : (reFind reEndSlash ('/' :: '*' :: h)).isSome = false := by
    rw [reFind_eq, reFindGo_endSlash_isSome, hcl]
  rw [commentScan_false_eq, hsl, hms, hme]
  dsimp only
  rw [if_neg (by simp), jsGet_single, List.nil_append]

theorem scan_accum_slash {t : Line} (mid : List Line) (rest : List Line)
    (k : Nat) (acc : Line) (st : Nat)
    (hmid : ∀ m ∈ mid, containsSub slashClose m = false) :
    commentScan reSingleSlash reStartSlash reEndSlash
      (mid ++ (t ++ slashClose) :: rest) k true acc st =
      mkMulti st
        (List.foldl (fun a m => a ++ '\n' :: m) acc (mid ++ [t ++ slashClose])) ::
        commentScan reSingleSlash reStartSlash reEndSlash rest
          (k + mid.length + 1) false [] st := by
  induction mid generalizing k acc with
  | nil =>
    rw [List.nil_append, commentScan_true_eq]
    have hme : (reFind reEndSlash (t ++ slashClose)).isSome = true := by
      rw [reFind_eq, reFindGo_endSlash_isSome]
      have := containsSub_of_parts slashClose t []
      simpa using this
    rw [hme]
    simp
  | cons m mid' ih =>
    rw [List.cons_append, commentScan_true_eq]
    have hme : (reFind reEndSlash m).isSome = false := by
      rw [reFind_eq, reFindGo_endSlash_isSome, hmid m (List.mem_cons_self m mid')]
    rw [hme]
    have ih' := ih (k + 1) (acc ++ '\n' :: m)
      (fun x hx => hmid x (List.mem_cons_of_mem m hx))
    rw [if_neg (by simp), ih']
    have hn : k + 1 + mid'.length + 1 = k + (m :: mid').length + 1 := by
      simp [List.length_cons]
      omega
    rw [hn]
    simp [List.foldl_cons]

theorem scan_sl_py {c : Line} (rest : List Line) (n : Nat) (acc : Line)
    (st : Nat) (hc : c.all dotC = true)
    (h1 : containsSub tq1 ('#' :: c) = false)
    (h2 : containsSub tq2 ('#' :: c) = false) :
    commentScan reSinglePy reStartPy reEndPy (('#' :: c) :: rest) n false acc
      st =
      mkSingle n (trim c) ::
        commentScan reSinglePy reStartPy reEndPy rest (n + 1) false acc st := by
  have hsl : reFind reSinglePy ('#' :: c) = some [(1, c)] := by
    rw [reFind_eq]
    exact reFindGo_marker_grp (w := ['#']) none (by decide) hc
  have hms : reFind reStartPy ('#' :: c) = none := by
    rw [reFind_eq]
    exact reFindGo_startPy_none none h1 h2
  rw [commentScan_false_eq, hsl, hms]
  dsimp only
  rw [jsGet_single, List.singleton_append]

theorem scan_close_py {t : Line} (rest : List Line) (n : Nat) (acc : Line)
    (st : Nat) (hss : containsSub ['#'] (t ++ tq1) = false)
    (h2 : containsSub tq2 (t ++ tq1) = false) :
    commentScan reSinglePy reStartPy reEndPy ((t ++ tq1) :: rest) n false acc
      st =
      mkMulti n tq1 ::
        commentScan reSinglePy reStartPy reEndPy rest (n + 1) false acc st := by
  have hsl : reFind reSinglePy (t ++ tq1) = none := by
    rw [reFind_eq, reSinglePy]
    exact reFindGo_strThen_none _ none hss
  have h1 : containsSub tq1 (t ++ tq1) = true := by
    have := containsSub_of_parts tq1 t []
    simpa using this
  obtain ⟨cp, hms, hcp⟩ := @reFindGo_startPy_any (t ++ tq1) none h2 h1
  have hms' : reFind reStartPy (t ++ tq1) = some cp := hms
  have hme : (reFind reEndPy (t ++ tq1)).isSome = true := by
    rw [reFind_eq, reFindGo_endPy_isSome, h1]
    rfl
  rw [commentScan_false_eq, hsl, hms', hme]
  dsimp only
  rw [if_pos rfl, hcp, List.nil_append,
    commentScan_false_inv reSinglePy reStartPy reEndPy rest (n + 1) [] acc n
      st]

theorem scan_open_py {h : Line} (rest : List Line) (n : Nat) (acc : Line)
    (st : Nat) (hss : containsSub ['#'] (tq1 ++ h) = false) :
    commentScan reSinglePy reStartPy reEndPy ((tq1 ++ h) :: rest) n false acc
      st =
      mkMulti n tq1 ::
        commentScan reSinglePy reStartPy reEndPy rest (n + 1) false acc st := by
  have hsl : reFind reSinglePy (tq1 ++ h) = none := by
    rw [reFind_eq, reSinglePy]
    exact reFindGo_strThen_none _ none hss
  obtain ⟨cp, hms, hcp⟩ := reFindGo_startPy_tq1 none h
  have hms' : reFind reStartPy (tq1 ++ h) = some cp := hms
  have hme : (reFind reEndPy (tq1 ++ h)).isSome = true := by
    rw [reFind_eq, reFindGo_endPy_isSome]
    have h1 : containsSub tq1 (tq1 ++ h) = true := by
      have := containsSub_of_parts tq1 [] h
      simpa using this
    rw [h1]
    rfl
  rw [commentScan_false_eq, hsl, hms', hme]
  dsimp only
  rw [if_pos rfl, hcp, List.nil_append,
    commentScan_false_inv reSinglePy reStartPy reEndPy rest (n + 1) [] acc n
      st]

theorem scan_m1_py {c : Line} (rest : List Line) (n : Nat) (acc : Line)
    (st : Nat) (hss : containsSub ['#'] (tq1 ++ c ++ tq1) = false) :
    commentScan reSinglePy reStartPy reEndPy ((tq1 ++ c ++ tq1) :: rest) n
      false acc st =
      mkMulti n tq1 ::
        commentScan reSinglePy reStartPy reEndPy rest (n + 1) false acc st := by
  rw [List.append_assoc] at hss ⊢
  exact scan_open_py rest n acc st hss

theorem scan_code_py {c : Line} (rest : List Line) (n : Nat) (acc : Line)
    (st : Nat) (hss : containsSub ['#'] c = false)
    (h1 : containsSub tq1 c = false) (h2 : containsSub tq2 c = false) :
    commentScan reSinglePy reStartPy reEndPy (c :: rest) n false acc st =
      commentScan reSinglePy reStartPy reEndPy rest (n + 1) false acc st := by
  have hsl : reFind reSinglePy c = none := by
    rw [reFind_eq, reSinglePy]
    exact reFindGo_strThen_none _ none hss
  have hms : reFind reStartPy c = none := by
    rw [reFind_eq]
    exact reFindGo_startPy_none none h1 h2
  rw [commentScan_false_eq, hsl, hms]
  rfl

theorem scan_skip_py (mids : List Line) (rest : List Line) (n : Nat)
    (acc : Line) (st : Nat)
    (h : ∀ m ∈ mids, containsSub ['#'] m = false ∧
      containsSub tq1 m = false ∧ containsSub tq2 m = false) :
    commentScan reSinglePy reStartPy reEndPy (mids ++ rest) n false acc st =
      commentScan reSinglePy reStartPy reEndPy rest (n + mids.length) false acc
        st := by
  induction mids generalizing n with
  | nil => simp
  | cons m mids' ih =>
    rw [List.cons_append]
    have hm := h m (List.mem_cons_self m mids')
    rw [scan_code_py _ _ _ _ hm.1 hm.2.1 hm.2.2]
    rw [ih (n + 1) (fun x hx => h x (List.mem_cons_of_mem m hx))]
    have : n + 1 + mids'.length = n + (m :: mids').length := by
      simp [List.length_cons]
      omega
    rw [this]

theorem scan_code_slash {c : Line} (rest : List Line) (n : Nat) (acc : Line)
    (st : Nat) (hss : containsSub ['/', '/'] c = false)
    (hms : containsSub ['/', '*'] c = false) :
    commentScan reSingleSlash reStartSlash reEndSlash (c :: rest) n false acc
      st =
      commentScan reSingleSlash reStartSlash reEndSlash rest (n + 1) false acc
        st := by
  have hsl : reFind reSingleSlash c = none := by
    rw [reFind_eq, reSingleSlash]
    exact reFindGo_strThen_none _ none hss
  have hms' : reFind reStartSlash c = none := by
    rw [reFind_eq, reStartSlash]
    exact reFindGo_strThen_none _ none hms
  rw [commentScan_false_eq, hsl, hms']
  rfl

theorem scan_items_slash (items : List CItem) (rest : List Line) (n : Nat)
    (acc : Line) (st : Nat) (hw : items.all (wfItem .slash) = true) :
    commentScan reSingleSlash reStartSlash reEndSlash
      (items.flatMap (genLines .slash) ++ rest) n false acc st =
      genExpected .slash n items ++
        commentScan reSingleSlash reStartSlash reEndSlash rest
          (n + (items.flatMap (genLines .slash)).length) false acc st := by
  induction items generalizing n with
  | nil => simp [genExpected]
  | cons it items' ih =>
    rw [List.all_cons, Bool.and_eq_true] at hw
    rw [List.flatMap_cons, List.append_assoc]
    cases it with
    | sl c =>
      rw [wfItem, Bool.and_eq_true] at hw
      show commentScan reSingleSlash reStartSlash reEndSlash
        (('/' :: '/' :: c) :: (items'.flatMap (genLines .slash) ++ rest))
          n false acc st = _
      rw [scan_sl_slash _ _ _ _ hw.1.1 (by simpa using hw.1.2),
        ih (n + 1) hw.2]
      simp only [genExpected, genItemElems, genLines, List.length_append,
        List.length_cons, List.length_nil, List.singleton_append,
        List.cons_append, List.nil_append]
      congr 1
      congr 1
      refine congrArg (fun k => commentScan reSingleSlash reStartSlash
        reEndSlash rest k false acc st) ?_
      omega
    | m1 c =>
      rw [wfItem, Bool.and_eq_true] at hw
      show commentScan reSingleSlash reStartSlash reEndSlash
        (('/' :: '*' :: (c ++ slashClose)) ::
          (items'.flatMap (genLines .slash) ++ rest)) n false acc st = _
      rw [scan_m1_slash _ _ _ _ hw.1.1 (by simpa using hw.1.2),
        ih (n + 1) hw.2]
      simp only [genExpected, genItemElems, genLines, List.length_append,
        List.length_cons, List.length_nil, List.singleton_append,
        List.cons_append, List.nil_append]
      congr 1
      congr 1
      refine congrArg (fun k => commentScan reSingleSlash reStartSlash
        reEndSlash rest k false acc st) ?_
      omega
    | ml h mid t =>
      rw [wfItem, Bool.and_eq_true, Bool.and_eq_true, Bool.and_eq_true,
        Bool.and_eq_true] at hw
      obtain ⟨⟨⟨⟨hdot, hss⟩, hcl⟩, hmid⟩, _⟩ := hw.1
      have hshape : genLines .slash (.ml h mid t) ++
          (items'.flatMap (genLines .slash) ++ rest) =
          ('/' :: '*' :: h) :: (mid ++ (t ++ slashClose) ::
            (items'.flatMap (genLines .slash) ++ rest)) := by
        show (('/' :: '*' :: h) :: (mid ++ [t ++ slashClose])) ++ _ = _
        simp
      rw [hshape]
      rw [scan_mlopen_slash _ _ _ _ hdot (by simpa using hss)
        (by simpa using hcl)]
      have hmid' : ∀ m ∈ mid, containsSub slashClose m = false := by
        intro m hm
        rw [List.all_eq_true] at hmid
        have := hmid m hm
        rw [Bool.and_eq_true] at this
        simpa using this.1
      rw [scan_accum_slash mid _ (n + 1) h n hmid']
      rw [commentScan_false_inv reSingleSlash reStartSlash reEndSlash _
        (n + 1 + mid.length + 1) [] acc n st]
      rw [ih (n + 1 + mid.length + 1) hw.2]
      simp only [genExpected, genItemElems, genLines, List.length_append,
        List.length_cons, List.length_nil, List.singleton_append,
        List.cons_append, List.nil_append]
      congr 1
      congr 1
      · refine congrArg (fun k => genExpected Fam.slash k items') ?_
        omega
      · refine congrArg (fun k => commentScan reSingleSlash reStartSlash
          reEndSlash rest k false acc st) ?_
        omega
    | code c =>
      rw [wfItem, Bool.and_eq_true, Bool.and_eq_true] at hw
      show commentScan reSingleSlash reStartSlash reEndSlash
        (c :: (items'.flatMap (genLines .slash) ++ rest)) n false acc st = _
      rw [scan_code_slash _ _ _ _ (by simpa using hw.1.1.1)
        (by simpa using hw.1.1.2), ih (n + 1) hw.2]
      simp only [genExpected, genItemElems, genLines, List.length_append,
        List.length_cons, List.length_nil, List.singleton_append,
        List.cons_append, List.nil_append]
      congr 1
      refine congrArg (fun k => commentScan reSingleSlash reStartSlash
        reEndSlash rest k false acc st) ?_
      omega

theorem scan_items_py (items : List CItem) (rest : List Line) (n : Nat)
    (acc : Line) (st : Nat) (hw : items.all (wfItem .py) = true) :
    commentScan reSinglePy reStartPy reEndPy
      (items.flatMap (genLines .py) ++ rest) n false acc st =
      genExpected .py n items ++
        commentScan reSinglePy reStartPy reEndPy rest
          (n + (items.flatMap (genLines .py)).length) false acc st := by
  induction items generalizing n with
  | nil => simp [genExpected]
  | cons it items' ih =>
    rw [List.all_cons, Bool.and_eq_true] at hw
    rw [List.flatMap_cons, List.append_assoc]
    cases it with
    | sl c =>
      simp only [wfItem, Bool.and_eq_true] at hw
      obtain ⟨⟨hdot, h1⟩, h2⟩ := hw.1
      show commentScan reSinglePy reStartPy reEndPy
        (('#' :: c) :: (items'.flatMap (genLines .py) ++ rest)) n false acc
          st = _
      rw [scan_sl_py _ _ _ _ hdot (by simpa using h1) (by simpa using h2),
        ih (n + 1) hw.2]
      simp only [genExpected, genItemElems, genLines, List.length_append,
        List.length_cons, List.length_nil, List.singleton_append,
        List.cons_append, List.nil_append]
      congr 1
      congr 1
      refine congrArg (fun k => commentScan reSinglePy reStartPy reEndPy rest k
        false acc st) ?_
      omega
    | m1 c =>
      simp only [wfItem, Bool.and_eq_true] at hw
      show commentScan reSinglePy reStartPy reEndPy
        ((tq1 ++ c ++ tq1) :: (items'.flatMap (genLines .py) ++ rest)) n false
          acc st = _
      rw [scan_m1_py _ _ _ _ (by simpa using hw.1.2), ih (n + 1) hw.2]
      simp only [genExpected, genItemElems, genLines, List.length_append,
        List.length_cons, List.length_nil, List.singleton_append,
        List.cons_append, List.nil_append]
      congr 1
      congr 1
      refine congrArg (fun k => commentScan reSinglePy reStartPy reEndPy rest k
        false acc st) ?_
      omega
    | ml h mid t =>
      simp only [wfItem, Bool.and_eq_true] at hw
      obtain ⟨⟨⟨⟨⟨hnl, hsharp⟩, hmid⟩, hnt⟩, hsharpt⟩, htq2t⟩ := hw.1
      have hshape : genLines .py (.ml h mid t) ++
          (items'.flatMap (genLines .py) ++ rest) =
          (tq1 ++ h) :: (mid ++ (t ++ tq1) ::
            (items'.flatMap (genLines .py) ++ rest)) := by
        show ((tq1 ++ h) :: (mid ++ [t ++ tq1])) ++ _ = _
        simp
      rw [hshape]
      rw [scan_open_py _ _ _ _ (by simpa using hsharp)]
      have hmid' : ∀ m ∈ mid, containsSub ['#'] m = false ∧
          containsSub tq1 m = false ∧ containsSub tq2 m = false := by
        intro m hm
        rw [List.all_eq_true] at hmid
        have := hmid m hm
        simp only [Bool.and_eq_true] at this
        exact ⟨by simpa using this.1.1.1, by simpa using this.1.1.2,
          by simpa using this.1.2⟩
      rw [scan_skip_py mid _ (n + 1) acc st hmid']
      rw [scan_close_py _ _ _ _ (by simpa using hsharpt)
        (by simpa using htq2t)]
      rw [ih (n + 1 + mid.length + 1) hw.2]
      simp only [genExpected, genItemElems, genLines, List.length_append,
        List.length_cons, List.length_nil, List.singleton_append,
        List.cons_append, List.nil_append]
      congr 1
      congr 1
      · refine congrArg (fun k => mkMulti k tq1) ?_
        omega
      congr 1
      · refine congrArg (fun k => genExpected Fam.py k items') ?_
        omega
      · refine congrArg (fun k => commentScan reSinglePy reStartPy reEndPy
          rest k false acc st) ?_
        omega
    | code c =>
      simp only [wfItem, Bool.and_eq_true] at hw
      obtain ⟨⟨⟨hsharp, h1⟩, h2⟩, _⟩ := hw.1
      show commentScan reSinglePy reStartPy reEndPy
        (c :: (items'.flatMap (genLines .py) ++ rest)) n false acc st = _
      rw [scan_code_py _ _ _ _ (by simpa using hsharp) (by simpa using h1)
        (by simpa using h2), ih (n + 1) hw.2]
      simp only [genExpected, genItemElems, genLines, List.length_append,
        List.length_cons, List.length_nil, List.singleton_append,
        List.cons_append, List.nil_append]
      congr 1
      refine congrArg (fun k => commentScan reSinglePy reStartPy reEndPy rest k
        false acc st) ?_
      omega

theorem splitNl_noNl {l : Line} (h : noNl l = true) : splitNl l = [l] := by
  induction l with
  | nil => rfl
  | cons c r ih =>
    rw [noNl, List.all_cons, Bool.and_eq_true] at h
    have hc : ¬ c = '\n' := by simpa using h.1
    rw [splitNl, if_neg hc, ih h.2]

theorem splitNl_append_cons {l : Line} (rest : Line) (h : noNl l = true) :
    splitNl (l ++ '\n' :: rest) = l :: splitNl rest := by
  induction l with
  | nil => rw [List.nil_append, splitNl, if_pos rfl]
  | cons c l' ih =>
    rw [noNl, List.all_cons, Bool.and_eq_true] at h
    have hc : ¬ c = '\n' := by simpa using h.1
    rw [List.cons_append, splitNl, if_neg hc, ih h.2]

theorem splitNl_joinNl {ls : List Line} (hne : ls ≠ [])
    (h : ∀ l ∈ ls, noNl l = true) : splitNl (joinNl ls) = ls := by
  induction ls with
  | nil => exact absurd rfl hne
  | cons l ls' ih =>
    cases ls' with
    | nil =>
      rw [joinNl]
      exact splitNl_noNl (h l (List.mem_cons_self l []))
    | cons l2 ls'' =>
      have hne2 : l2 :: ls'' ≠ [] := by intro hx; cases hx
      have hjoin := ih hne2 (fun x hx => h x (List.mem_cons_of_mem l hx))
      rw [joinNl, splitNl_append_cons _ (h l (List.mem_cons_self l _)), hjoin]
      intro hx
      cases hx

theorem noNl_of_dotC {l : Line} (h : l.all dotC = true) : noNl l = true := by
  rw [noNl, List.all_eq_true] at *
  intro c hc
  have := h c hc
  rw [dotC, Bool.not_eq_true', Bool.or_eq_false_iff] at this
  simpa using this.1

theorem noNl_append {a b : Line} (ha : noNl a = true) (hb : noNl b = true) :
    noNl (a ++ b) = true := by
  rw [noNl] at ha hb ⊢
  rw [List.all_append, ha, hb]
  rfl

theorem gen_lines_noNl (fam : Fam) (it : CItem) (hw : wfItem fam it = true) :
    ∀ l ∈ genLines fam it, noNl l = true := by
  cases fam with
  | slash =>
    cases it with
    | sl c =>
      simp only [wfItem, Bool.and_eq_true] at hw
      intro l hl
      simp only [genLines, List.mem_singleton] at hl
      subst hl
      exact noNl_of_dotC (by simp [List.all_cons, hw.1, dotC])
    | m1 c =>
      simp only [wfItem, Bool.and_eq_true] at hw
      intro l hl
      simp only [genLines, List.mem_singleton] at hl
      subst hl
      refine noNl_of_dotC ?_
      simp only [List.all_cons, List.all_append, Bool.and_eq_true]
      exact ⟨by decide, by decide, hw.1, by decide⟩
    | ml h mid t =>
      simp only [wfItem, Bool.and_eq_true] at hw
      obtain ⟨⟨⟨⟨hdot, _⟩, _⟩, hmid⟩, hnt⟩ := hw
      intro l hl
      simp only [genLines] at hl
      simp only [List.mem_append, List.mem_cons, List.mem_singleton] at hl
      rcases hl with (hl | hl) | (hl | hl)
      · subst hl
        exact noNl_of_dotC (by simp [List.all_cons, hdot, dotC])
      · rw [List.all_eq_true] at hmid
        have := hmid l hl
        rw [Bool.and_eq_true] at this
        exact this.2
      · subst hl
        exact noNl_append hnt (by decide)
      · cases hl
    | code c =>
      simp only [wfItem, Bool.and_eq_true] at hw
      intro l hl
      simp only [genLines, List.mem_singleton] at hl
      subst hl
      exact hw.2
  | py =>
    cases it with
    | sl c =>
      simp only [wfItem, Bool.and_eq_true] at hw
      intro l hl
      simp only [genLines, List.mem_singleton] at hl
      subst hl
      exact noNl_of_dotC (by simp [List.all_cons, hw.1.1, dotC])
    | m1 c =>
      simp only [wfItem, Bool.and_eq_true] at hw
      intro l hl
      simp only [genLines, List.mem_singleton] at hl
      subst hl
      exact noNl_append (noNl_append (by decide) hw.1) (by decide)
    | ml h mid t =>
      simp only [wfItem, Bool.and_eq_true] at hw
      obtain ⟨⟨⟨⟨⟨hnl, _⟩, hmid⟩, hnt⟩, _⟩, _⟩ := hw
      intro l hl
      simp only [genLines] at hl
      simp only [List.mem_append, List.mem_cons, List.mem_singleton] at hl
      rcases hl with (hl | hl) | (hl | hl)
      · subst hl
        exact noNl_append (by decide) hnl
      · rw [List.all_eq_true] at hmid
        have := hmid l hl
        simp only [Bool.and_eq_true] at this
        exact this.2
      · subst hl
        exact noNl_append hnt (by decide)
      · cases hl
    | code c =>
      simp only [wfItem, Bool.and_eq_true] at hw
      intro l hl
      simp only [genLines, List.mem_singleton] at hl
      subst hl
      exact hw.2

theorem genLines_ne_nil (fam : Fam) (it : CItem) : genLines fam it ≠ [] := by
  cases fam <;> cases it <;> simp [genLines]

theorem extractComments_gen_slash (lang : String) (items : List CItem)
    (hf : famOf lang = some .slash) (hw : items.all (wfItem .slash) = true) :
    extractComments (joinNl (items.flatMap (genLines .slash))) lang =
      genExpected .slash 1 items := by
  have hpat : commentPatterns lang =
      some (reSingleSlash, reStartSlash, reEndSlash) := by
    unfold famOf at hf
    split at hf <;> first
      | rfl
      | (exfalso; cases hf)
  rw [extractComments, hpat]
  dsimp only
  cases hitems : items with
  | nil =>
    subst hitems
    decide
  | cons it items' =>
    have hwc : (it :: items').all (wfItem .slash) = true := hitems ▸ hw
    have hlinesne : (it :: items').flatMap (genLines .slash) ≠ [] := by
      rw [List.flatMap_cons]
      intro hx
      rw [List.append_eq_nil] at hx
      exact genLines_ne_nil .slash it hx.1
    have hnl : ∀ l ∈ (it :: items').flatMap (genLines .slash),
        noNl l = true := by
      intro l hl
      rw [List.mem_flatMap] at hl
      obtain ⟨x, hx, hlx⟩ := hl
      rw [List.all_eq_true] at hwc
      exact gen_lines_noNl .slash x (hwc x hx) l hlx
    rw [splitNl_joinNl hlinesne hnl]
    have hsc := scan_items_slash (it :: items') [] 1 [] 0 hwc
    rw [List.append_nil] at hsc
    rw [hsc, commentScan_nil, List.append_nil]

theorem extractComments_gen_py (items : List CItem)
    (hw : items.all (wfItem .py) = true) :
    extractComments (joinNl (items.flatMap (genLines .py))) "python" =
      genExpected .py 1 items := by
  rw [extractComments,
    show commentPatterns "python" = some (reSinglePy, reStartPy, reEndPy)
      from rfl]
  dsimp only
  cases hitems : items with
  | nil =>
    subst hitems
    decide
  | cons it items' =>
    have hwc : (it :: items').all (wfItem .py) = true := hitems ▸ hw
    have hlinesne : (it :: items').flatMap (genLines .py) ≠ [] := by
      rw [List.flatMap_cons]
      intro hx
      rw [List.append_eq_nil] at hx
      exact genLines_ne_nil .py it hx.1
    have hnl : ∀ l ∈ (it :: items').flatMap (genLines .py),
        noNl l = true := by
      intro l hl
      rw [List.mem_flatMap] at hl
      obtain ⟨x, hx, hlx⟩ := hl
      rw [List.all_eq_true] at hwc
      exact gen_lines_noNl .py x (hwc x hx) l hlx
    rw [splitNl_joinNl hlinesne hnl]
    have hsc := scan_items_py (it :: items') [] 1 [] 0 hwc
    rw [List.append_nil] at hsc
    rw [hsc, commentScan_nil, List.append_nil]

theorem genItemElems_length_slash (n : Nat) (it : CItem) :
    (genItemElems .slash n it).length =
      (match it with
       | .sl _ => 1 | .m1 _ => 1 | .ml _ _ _ => 1 | .code _ => 0) := by
  cases it <;> rfl

theorem genItemElems_length_py (n : Nat) (it : CItem) :
    (genItemElems .py n it).length =
      (match it with
       | .sl _ => 1 | .m1 _ => 1 | .ml _ _ _ => 2 | .code _ => 0) := by
  cases it <;> rfl

theorem genExpected_length_slash (n : Nat) (items : List CItem) :
    (genExpected .slash n items).length =
      countSingles items + countMultis items := by
  induction items generalizing n with
  | nil => rfl
  | cons it items' ih =>
    rw [genExpected, List.length_append, genItemElems_length_slash,
      ih (n + (genLines .slash it).length)]
    cases it <;>
      simp [countSingles, countMultis, List.countP_cons] <;> omega

theorem genExpected_length_py (n : Nat) (items : List CItem) :
    (genExpected .py n items).length =
      countSingles items + countMultis items + countSpanning items := by
  induction items generalizing n with
  | nil => rfl
  | cons it items' ih =>
    rw [genExpected, List.length_append, genItemElems_length_py,
      ih (n + (genLines .py it).length)]
    cases it <;>
      simp [countSingles, countMultis, countSpanning, List.countP_cons] <;>
      omega

theorem scan_true_noclose_slash (mids : List Line) (k : Nat) (acc : Line)
    (st : Nat) (h : ∀ m ∈ mids, containsSub slashClose m = false) :
    commentScan reSingleSlash reStartSlash reEndSlash mids k true acc st =
      [] := by
  induction mids generalizing k acc with
  | nil => rfl
  | cons m mids' ih =>
    rw [commentScan_true_eq]
    have hme : (reFind reEndSlash m).isSome = false := by
      rw [reFind_eq, reFindGo_endSlash_isSome, h m (List.mem_cons_self m mids')]
    rw [hme, if_neg (by simp)]
    exact ih (k + 1) _ (fun x hx => h x (List.mem_cons_of_mem m hx))

theorem scan_unterm_slash {h : Line} (mids : List Line) (n : Nat) (acc : Line)
    (st : Nat) (hh : h.all dotC = true)
    (hss : containsSub ['/', '/'] ('/' :: '*' :: h) = false)
    (hcl : containsSub slashClose ('/' :: '*' :: h) = false)
    (hm : ∀ m ∈ mids, containsSub slashClose m = false) :
    commentScan reSingleSlash reStartSlash reEndSlash
      (('/' :: '*' :: h) :: mids) n false acc st = [] := by
  rw [scan_mlopen_slash _ _ _ _ hh hss hcl]
  exact scan_true_noclose_slash mids (n + 1) h n hm

theorem famOf_py_eq {lang : String} (hf : famOf lang = some .py) :
    lang = "python" := by
  unfold famOf at hf
  split at hf <;> first | rfl | simp at hf

/-- Claim C1 (amended).  For every supported language, extracting comments
from a generated text of N well-formed single-line comments, M well-formed
non-nested multi-line blocks and arbitrary interleaved plain lines yields
exactly the generated expectation: every element carries the correct 1-based
line number (the block's start line for blocks) and single-line elements
carry the trimmed text after the marker.  For the slash-family languages
(javascript, typescript, java, go) the element count is exactly N+M, but a
block's content is the raw accumulated text including the closing `*/`, not
trimmed; for python the end pattern `(.*?)('''|""")` also matches the
opening delimiter, so each block spanning several lines emits two elements
(at its opening and closing lines) whose content is just the delimiter,
giving N+M+S elements where S counts the spanning blocks. -/
theorem extractComments_wellformed_counts (lang : String) (fam : Fam)
    (items : List CItem) (hf : famOf lang = some fam)
    (hw : items.all (wfItem fam) = true) :
    extractComments (joinNl (items.flatMap (genLines fam))) lang =
      genExpected fam 1 items ∧
    (fam = .slash →
      (genExpected fam 1 items).length =
        countSingles items + countMultis items) ∧
    (fam = .py →
      (genExpected fam 1 items).length =
        countSingles items + countMultis items + countSpanning items) := by
  cases fam with
  | slash =>
    refine ⟨extractComments_gen_slash lang items hf hw, ?_, ?_⟩
    · intro _
      exact genExpected_length_slash 1 items
    · intro hx
      cases hx
  | py =>
    rw [famOf_py_eq hf]
    refine ⟨extractComments_gen_py items hw, ?_, ?_⟩
    · intro hx
      cases hx
    · intro _
      exact genExpected_length_py 1 items

/-- Witness for C1: a concrete javascript text with one single-line comment
and one three-line block. -/
theorem extractComments_wellformed_counts_witness :
    ((([CItem.sl (" hi".data), CItem.ml (" a".data) ["b".data] ("c ".data)]
      : List CItem).all (wfItem Fam.slash)) = true) ∧
    (extractComments (joinNl (([CItem.sl (" hi".data),
        CItem.ml (" a".data) ["b".data] ("c ".data)] : List CItem).flatMap
          (genLines Fam.slash))) "javascript" =
      genExpected Fam.slash 1 [CItem.sl (" hi".data),
        CItem.ml (" a".data) ["b".data] ("c ".data)] ∧
      (Fam.slash = Fam.slash →
        (genExpected Fam.slash 1 [CItem.sl (" hi".data),
          CItem.ml (" a".data) ["b".data] ("c ".data)]).length =
          countSingles [CItem.sl (" hi".data),
            CItem.ml (" a".data) ["b".data] ("c ".data)] +
            countMultis [CItem.sl (" hi".data),
              CItem.ml (" a".data) ["b".data] ("c ".data)]) ∧
      (Fam.slash = Fam.py →
        (genExpected Fam.slash 1 [CItem.sl (" hi".data),
          CItem.ml (" a".data) ["b".data] ("c ".data)]).length =
          countSingles [CItem.sl (" hi".data),
            CItem.ml (" a".data) ["b".data] ("c ".data)] +
            countMultis [CItem.sl (" hi".data),
              CItem.ml (" a".data) ["b".data] ("c ".data)] +
            countSpanning [CItem.sl (" hi".data),
              CItem.ml (" a".data) ["b".data] ("c ".data)])) :=
  ⟨by decide,
    extractComments_wellformed_counts "javascript" Fam.slash
      [CItem.sl (" hi".data), CItem.ml (" a".data) ["b".data] ("c ".data)]
      rfl (by decide)⟩

/-- Counterexample to C1 as stated: the python text of one well-formed
three-line comment block (N = 0, M = 1) yields 2 elements, not N+M = 1, and
neither element content is trimmed comment text (both are the bare
delimiter). -/
theorem extractComments_python_block_two_elements :
    joinNl (([CItem.ml [] ["a".data] []] : List CItem).flatMap
      (genLines Fam.py)) = ("'''\na\n'''").data ∧
    (([CItem.ml [] ["a".data] []] : List CItem).all (wfItem Fam.py)) = true ∧
    countSingles [CItem.ml [] ["a".data] []] +
      countMultis [CItem.ml [] ["a".data] []] = 1 ∧
    (extractComments (("'''\na\n'''").data) "python").length = 2 := by
  decide

/-- Claim C4 (amended).  For javascript, typescript, java and go, a
multi-line comment block opened but never closed before end-of-input yields
zero elements for that block — no error and no partial element — while all
comments completed before it are still emitted.  For python the claim fails:
the end pattern matches the opening delimiter itself, so the opening line
emits one element immediately (see the counterexample); no unterminated
state is ever reached. -/
theorem extractComments_unterminated_slash (lang : String)
    (items : List CItem) (h : Line) (mids : List Line)
    (hf : famOf lang = some .slash)
    (hw : items.all (wfItem .slash) = true)
    (hh : h.all dotC = true)
    (hss : containsSub ['/', '/'] ('/' :: '*' :: h) = false)
    (hcl : containsSub slashClose ('/' :: '*' :: h) = false)
    (hm : ∀ m ∈ mids, containsSub slashClose m = false ∧ noNl m = true) :
    extractComments (joinNl (items.flatMap (genLines .slash) ++
      ('/' :: '*' :: h) :: mids)) lang = genExpected .slash 1 items := by
  have hpat : commentPatterns lang =
      some (reSingleSlash, reStartSlash, reEndSlash) := by
    unfold famOf at hf
    split at hf <;> first
      | rfl
      | (exfalso; cases hf)
  rw [extractComments, hpat]
  dsimp only
  have hlinesne : items.flatMap (genLines .slash) ++
      ('/' :: '*' :: h) :: mids ≠ [] := by
    simp
  have hnl : ∀ l ∈ items.flatMap (genLines .slash) ++
      ('/' :: '*' :: h) :: mids, noNl l = true := by
    intro l hl
    rw [List.mem_append] at hl
    rcases hl with hl | hl
    · rw [List.mem_flatMap] at hl
      obtain ⟨x, hx, hlx⟩ := hl
      rw [List.all_eq_true] at hw
      exact gen_lines_noNl .slash x (hw x hx) l hlx
    · rw [List.mem_cons] at hl
      rcases hl with hl | hl
      · subst hl
        exact noNl_of_dotC (by simp [List.all_cons, hh, dotC])
      · exact (hm l hl).2
  rw [splitNl_joinNl hlinesne hnl]
  rw [scan_items_slash items (('/' :: '*' :: h) :: mids) 1 [] 0 hw]
  rw [scan_unterm_slash mids _ [] _ hh hss hcl (fun m hm2 => (hm m hm2).1),
    List.append_nil]

/-- Witness for C4: a javascript text with one complete comment and an
unterminated block opened afterwards. -/
theorem extractComments_unterminated_slash_witness :
    ((([CItem.sl (" ok".data)] : List CItem).all (wfItem Fam.slash)) = true) ∧
    (" open".data).all dotC = true ∧
    containsSub ['/', '/'] ('/' :: '*' :: (" open".data)) = false ∧
    containsSub slashClose ('/' :: '*' :: (" open".data)) = false ∧
    extractComments (joinNl (([CItem.sl (" ok".data)] : List CItem).flatMap
      (genLines Fam.slash) ++
        ('/' :: '*' :: (" open".data)) :: ["more".data])) "javascript" =
      genExpected Fam.slash 1 [CItem.sl (" ok".data)] :=
  ⟨by decide, by decide, by decide, by decide,
    extractComments_unterminated_slash "javascript" [CItem.sl (" ok".data)]
      (" open".data) ["more".data] rfl (by decide) (by decide) (by decide)
      (by decide) (by decide)⟩

/-- Counterexample to C4 as stated: in python an opened, never-closed block
(`'''x` at end of input) emits one element — content just the delimiter —
rather than zero. -/
theorem extractComments_python_unterminated_emits :
    (reFind reStartPy (("'''x").data)).isSome = true ∧
    extractComments (("'''x").data) "python" = [mkMulti 1 tq1] := by
  decide

theorem lineScan_line_ge {f : Line → Nat → Option ExtractedElement}
    (hf : ∀ l n e, f l n = some e → e.line = n) :
    ∀ lines n e, e ∈ lineScan f lines n → n ≤ e.line := by
  intro lines
  induction lines with
  | nil => intro n e he; cases he
  | cons line rest ih =>
    intro n e he
    rw [lineScan] at he
    cases hstep : f line n with
    | none =>
      rw [hstep] at he
      exact Nat.le_of_succ_le (ih (n + 1) e he)
    | some e2 =>
      rw [hstep] at he
      rcases List.mem_cons.mp he with he | he
      · subst he
        exact Nat.le_of_eq (hf line n e hstep).symm
      · exact Nat.le_of_succ_le (ih (n + 1) e he)

theorem lineScan_sorted {f : Line → Nat → Option ExtractedElement}
    (hf : ∀ l n e, f l n = some e → e.line = n) :
    ∀ lines n,
      List.Pairwise (· ≤ ·) ((lineScan f lines n).map (fun e => e.line)) := by
  intro lines
  induction lines with
  | nil => intro n; exact List.Pairwise.nil
  | cons line rest ih =>
    intro n
    rw [lineScan]
    cases hstep : f line n with
    | none => exact ih (n + 1)
    | some e2 =>
      rw [List.map_cons]
      refine List.pairwise_cons.mpr ⟨?_, ih (n + 1)⟩
      intro b hb
      rw [List.mem_map] at hb
      obtain ⟨x, hx, rfl⟩ := hb
      rw [hf line n e2 hstep]
      exact Nat.le_of_succ_le (lineScan_line_ge hf rest (n + 1) x hx)

theorem ite_some_none_eq {c : Prop} [Decidable c] {X e : ExtractedElement}
    (h : (if c then some X else none) = some e) : e = X := by
  by_cases hc : c
  · rw [if_pos hc] at h
    exact (Option.some.inj h).symm
  · rw [if_neg hc] at h
    cases h

theorem functionStep_line (lang : String) (pats : List RE) (line : Line)
    (n : Nat) (e : ExtractedElement)
    (h : functionStep lang pats line n = some e) : e.line = n := by
  unfold functionStep at h
  cases hm : firstMatch pats line <;> rw [hm] at h
  · cases h
  · rw [ite_some_none_eq h]

theorem classStep_line (lang : String) (pats : List RE) (line : Line)
    (n : Nat) (e : ExtractedElement)
    (h : classStep lang pats line n = some e) : e.line = n := by
  unfold classStep at h
  cases hm : firstMatch pats line <;> rw [hm] at h
  · cases h
  · rw [ite_some_none_eq h]

theorem importStep_line (pats : List RE) (line : Line) (n : Nat)
    (e : ExtractedElement) (h : importStep pats line n = some e) :
    e.line = n := by
  unfold importStep at h
  cases hm : firstMatch pats line <;> rw [hm] at h
  · cases h
  · cases h; rfl

theorem variableStep_line (lang : String) (pats : List RE) (line : Line)
    (n : Nat) (e : ExtractedElement)
    (h : variableStep lang pats line n = some e) : e.line = n := by
  unfold variableStep at h
  split at h
  · cases h
  · cases hm : firstMatch pats line <;> rw [hm] at h
    · cases h
    · rw [ite_some_none_eq h]

theorem typeStep_line (pats : List RE) (line : Line) (n : Nat)
    (e : ExtractedElement) (h : typeStep pats line n = some e) : e.line = n := by
  unfold typeStep at h
  cases hm : firstMatch pats line <;> rw [hm] at h
  · cases h
  · rw [ite_some_none_eq h]

theorem mkMulti_line (st : Nat) (c : Line) : (mkMulti st c).line = st := rfl

theorem mkSingle_line (n : Nat) (c : Line) : (mkSingle n c).line = n := rfl

theorem commentScan_line_ge (sl ms me : RE) :
    ∀ (lines : List Line) (n : Nat) (inML : Bool) (acc : Line) (st : Nat),
      (inML = true → st ≤ n) →
      ∀ e ∈ commentScan sl ms me lines n inML acc st,
        (if inML then st else n) ≤ e.line := by
  intro lines
  induction lines with
  | nil =>
    intro n inML acc st _ e he
    rw [commentScan_nil] at he
    cases he
  | cons line rest ih =>
    intro n inML acc st hst e he
    cases inML with
    | true =>
      rw [commentScan_true_eq] at he
      rw [if_pos rfl]
      split at he
      · rcases List.mem_cons.mp he with he | he
        · subst he
          exact Nat.le_refl st
        · have := ih (n + 1) false [] st (fun h => nomatch h) e he
          rw [if_neg (by simp)] at this
          exact Nat.le_trans (hst rfl) (Nat.le_of_succ_le this)
      · have := ih (n + 1) true (acc ++ '\n' :: line) st
          (fun _ => Nat.le_succ_of_le (hst rfl)) e he
        rw [if_pos rfl] at this
        exact this
    | false =>
      rw [commentScan_false_eq] at he
      rw [if_neg (by simp)]
      rcases List.mem_append.mp he with he | he
      · split at he
        · rw [List.mem_singleton] at he
          subst he
          exact Nat.le_refl n
        · cases he
      · split at he
        · split at he
          · rcases List.mem_cons.mp he with he | he
            · subst he
              exact Nat.le_refl n
            · have := ih (n + 1) false [] n (fun h => nomatch h) e he
              rw [if_neg (by simp)] at this
              exact Nat.le_of_succ_le this
          · have := ih (n + 1) true _ n (fun _ => Nat.le_succ n) e he
            rw [if_pos rfl] at this
            exact this
        · have := ih (n + 1) false acc st (fun h => nomatch h) e he
          rw [if_neg (by simp)] at this
          exact Nat.le_of_succ_le this

theorem commentScan_sorted (sl ms me : RE) :
    ∀ (lines : List Line) (n : Nat) (inML : Bool) (acc : Line) (st : Nat),
      (inML = true → st ≤ n) →
      List.Pairwise (· ≤ ·)
        ((commentScan sl ms me lines n inML acc st).map (fun e => e.line)) := by
  intro lines
  induction lines with
  | nil =>
    intro n inML acc st _
    rw [commentScan_nil]
    exact List.Pairwise.nil
  | cons line rest ih =>
    intro n inML acc st hst
    cases inML with
    | true =>
      rw [commentScan_true_eq]
      split
      · rw [List.map_cons]
        refine List.pairwise_cons.mpr ⟨?_, ih (n + 1) false [] st
          (fun h => nomatch h)⟩
        intro b hb
        rw [List.mem_map] at hb
        obtain ⟨x, hx, rfl⟩ := hb
        have := commentScan_line_ge sl ms me rest (n + 1) false [] st
          (fun h => nomatch h) x hx
        rw [if_neg (by simp)] at this
        rw [mkMulti_line]
        exact Nat.le_trans (hst rfl) (Nat.le_of_succ_le this)
      · exact ih (n + 1) true (acc ++ '\n' :: line) st
          (fun _ => Nat.le_succ_of_le (hst rfl))
    | false =>
      rw [commentScan_false_eq]
      split
      · rw [List.singleton_append]
        split
        · split
          · rw [List.map_cons, List.map_cons]
            refine List.pairwise_cons.mpr ⟨?_, ?_⟩
            · intro b hb
              rw [mkSingle_line]
              rcases List.mem_cons.mp hb with hb | hb
              · rw [hb, mkMulti_line]
              · obtain ⟨x, hx, rfl⟩ := List.mem_map.mp hb
                have := commentScan_line_ge sl ms me rest (n + 1) false [] n
                  (fun h => nomatch h) x hx
                rw [if_neg (by simp)] at this
                exact Nat.le_of_succ_le this
            · refine List.pairwise_cons.mpr ⟨?_, ih (n + 1) false [] n
                (fun h => nomatch h)⟩
              intro b hb
              obtain ⟨x, hx, rfl⟩ := List.mem_map.mp hb
              have := commentScan_line_ge sl ms me rest (n + 1) false [] n
                (fun h => nomatch h) x hx
              rw [if_neg (by simp)] at this
              rw [mkMulti_line]
              exact Nat.le_of_succ_le this
          · rw [List.map_cons]
            refine List.pairwise_cons.mpr ⟨?_, ih (n + 1) true _ n
              (fun _ => Nat.le_succ n)⟩
            intro b hb
            obtain ⟨x, hx, rfl⟩ := List.mem_map.mp hb
            have := commentScan_line_ge sl ms me rest (n + 1) true _ n
              (fun _ => Nat.le_succ n) x hx
            rw [if_pos rfl] at this
            rw [mkSingle_line]
            exact this
        · rw [List.map_cons]
          refine List.pairwise_cons.mpr ⟨?_, ih (n + 1) false acc st
            (fun h => nomatch h)⟩
          intro b hb
          obtain ⟨x, hx, rfl⟩ := List.mem_map.mp hb
          have := commentScan_line_ge sl ms me rest (n + 1) false acc st
            (fun h => nomatch h) x hx
          rw [if_neg (by simp)] at this
          rw [mkSingle_line]
          exact Nat.le_of_succ_le this
      · rw [List.nil_append]
        split
        · split
          · rw [List.map_cons]
            refine List.pairwise_cons.mpr ⟨?_, ih (n + 1) false [] n
              (fun h => nomatch h)⟩
            intro b hb
            obtain ⟨x, hx, rfl⟩ := List.mem_map.mp hb
            have := commentScan_line_ge sl ms me rest (n + 1) false [] n
              (fun h => nomatch h) x hx
            rw [if_neg (by simp)] at this
            rw [mkMulti_line]
            exact Nat.le_of_succ_le this
          · exact ih (n + 1) true _ n (fun _ => Nat.le_succ n)
        · exact ih (n + 1) false acc st (fun h => nomatch h)

/-- Claim C7.  For every extractor (dispatched by the execute switch), every
language, and every input text, the emitted element sequence is ordered by
appearance: the line numbers are non-decreasing, including multi-line
comment elements, which carry their block's start line even though they are
emitted when the block closes. -/
theorem extract_elements_line_sorted (t : String) (content : Line)
    (lang : String) :
    List.Pairwise (· ≤ ·)
      ((extractByType t content lang).map (fun e => e.line)) := by
  unfold extractByType
  split_ifs
  · unfold extractComments
    cases hpat : commentPatterns lang with
    | none => exact List.Pairwise.nil
    | some p =>
      obtain ⟨a, b, c⟩ := p
      exact commentScan_sorted a b c (splitNl content) 1 false [] 0
        (fun h => nomatch h)
  · unfold extractFunctions
    cases hp : functionPatterns lang with
    | none => exact List.Pairwise.nil
    | some pats =>
      exact lineScan_sorted (fun l k e h => functionStep_line lang pats l k e h)
        (splitNl content) 1
  · unfold extractClasses
    cases hp : classPatterns lang with
    | none => exact List.Pairwise.nil
    | some pats =>
      exact lineScan_sorted (fun l k e h => classStep_line lang pats l k e h)
        (splitNl content) 1
  · unfold extractImports
    cases hp : importPatterns lang with
    | none => exact List.Pairwise.nil
    | some pats =>
      exact lineScan_sorted (fun l k e h => importStep_line pats l k e h)
        (splitNl content) 1
  · unfold extractVariables
    cases hp : variablePatterns lang with
    | none => exact List.Pairwise.nil
    | some pats =>
      exact lineScan_sorted (fun l k e h => variableStep_line lang pats l k e h)
        (splitNl content) 1
  · unfold extractTypes
    cases hp : typePatterns lang with
    | none => exact List.Pairwise.nil
    | some pats =>
      exact lineScan_sorted (fun l k e h => typeStep_line pats l k e h)
        (splitNl content) 1
  · exact List.Pairwise.nil

theorem lineScan_countP_zero {f : Line → Nat → Option ExtractedElement}
    (hf : ∀ l n e, f l n = some e → e.line = n) (lines : List Line) (n m : Nat)
    (hm : m < n) :
    (lineScan f lines n).countP (fun e => e.line = m) = 0 := by
  rw [List.countP_eq_zero]
  intro e he
  have := lineScan_line_ge hf lines n e he
  simp only [decide_eq_true_eq]
  omega

theorem lineScan_countP_le_one {f : Line → Nat → Option ExtractedElement}
    (hf : ∀ l n e, f l n = some e → e.line = n) :
    ∀ (lines : List Line) (n m : Nat),
      (lineScan f lines n).countP (fun e => e.line = m) ≤ 1 := by
  intro lines
  induction lines with
  | nil => intro n m; simp [lineScan]
  | cons line rest ih =>
    intro n m
    rw [lineScan]
    cases hstep : f line n with
    | none => exact ih (n + 1) m
    | some e =>
      rw [List.countP_cons]
      by_cases hem : e.line = m
      · have hmn : m = n := hem ▸ (hf line n e hstep) ▸ rfl
        rw [lineScan_countP_zero hf rest (n + 1) m (by omega)]
        simp [hem]
      · simp only [hem]
        simpa using ih (n + 1) m

theorem firstMatch_skip {line : Line} (p : RE) (pats₂ : List RE) :
    ∀ pats₁ : List RE, (∀ q ∈ pats₁, reFind q line = none) →
      (reFind p line).isSome = true →
      firstMatch (pats₁ ++ p :: pats₂) line = reFind p line := by
  intro pats₁
  induction pats₁ with
  | nil =>
    intro _ hp
    rw [List.nil_append, firstMatch]
    cases hfind : reFind p line with
    | none => rw [hfind] at hp; cases hp
    | some cp => rfl
  | cons q pats₁' ih =>
    intro hq hp
    rw [List.cons_append, firstMatch, hq q (List.mem_cons_self q pats₁')]
    exact ih (fun x hx => hq x (List.mem_cons_of_mem q hx)) hp

theorem firstMatch_none_iff (pats : List RE) (line : Line) :
    firstMatch pats line = none ↔ ∀ p ∈ pats, reFind p line = none := by
  induction pats with
  | nil => simp [firstMatch]
  | cons p ps ih =>
    rw [firstMatch]
    cases hfind : reFind p line with
    | some cp =>
      simp only [List.mem_cons]
      constructor
      · intro h; cases h
      · intro h
        have := h p (Or.inl rfl)
        rw [hfind] at this
        cases this
    | none =>
      rw [ih]
      constructor
      · intro h q hq
        rcases List.mem_cons.mp hq with hq | hq
        · subst hq; exact hfind
        · exact h q hq
      · intro h q hq
        exact h q (List.mem_cons_of_mem p hq)

/-- Claim C2 (amended).  For the five stateless extractors (functions,
classes, imports, variables, types) each input line contributes at most one
element, and the inner pattern loop takes the first pattern in declared
order that matches: every pattern before it failing and it matching forces
the loop's result, and the loop yields nothing exactly when every pattern
fails.  The comments extractor is the exception: it consults the
single-line and block-start patterns independently, so one line can
contribute two elements (see the counterexample). -/
theorem stateless_first_match_per_line :
    (∀ t ∈ statelessTypes, ∀ (content : Line) (lang : String) (m : Nat),
      (extractByType t content lang).countP (fun e => e.line = m) ≤ 1) ∧
    (∀ (pats₁ : List RE) (p : RE) (pats₂ : List RE) (line : Line),
      (∀ q ∈ pats₁, reFind q line = none) → (reFind p line).isSome = true →
      firstMatch (pats₁ ++ p :: pats₂) line = reFind p line) ∧
    (∀ (pats : List RE) (line : Line),
      firstMatch pats line = none ↔ ∀ p ∈ pats, reFind p line = none) := by
  refine ⟨?_, fun pats₁ p pats₂ line hq hp => firstMatch_skip p pats₂ pats₁
    hq hp, firstMatch_none_iff⟩
  intro t ht content lang m
  have hcases : t = "functions" ∨ t = "classes" ∨ t = "imports" ∨
      t = "variables" ∨ t = "types" := by
    simpa [statelessTypes] using ht
  rcases hcases with rfl | rfl | rfl | rfl | rfl
  · show (extractFunctions content lang).countP _ ≤ 1
    unfold extractFunctions
    cases hp : functionPatterns lang with
    | none => simp
    | some pats =>
      exact lineScan_countP_le_one
        (fun l k e h => functionStep_line lang pats l k e h) (splitNl content)
          1 m
  · show (extractClasses content lang).countP _ ≤ 1
    unfold extractClasses
    cases hp : classPatterns lang with
    | none => simp
    | some pats =>
      exact lineScan_countP_le_one
        (fun l k e h => classStep_line lang pats l k e h) (splitNl content) 1 m
  · show (extractImports content lang).countP _ ≤ 1
    unfold extractImports
    cases hp : importPatterns lang with
    | none => simp
    | some pats =>
      exact lineScan_countP_le_one
        (fun l k e h => importStep_line pats l k e h) (splitNl content) 1 m
  · show (extractVariables content lang).countP _ ≤ 1
    unfold extractVariables
    cases hp : variablePatterns lang with
    | none => simp
    | some pats =>
      exact lineScan_countP_le_one
        (fun l k e h => variableStep_line lang pats l k e h) (splitNl content)
          1 m
  · show (extractTypes content lang).countP _ ≤ 1
    unfold extractTypes
    cases hp : typePatterns lang with
    | none => simp
    | some pats =>
      exact lineScan_countP_le_one
        (fun l k e h => typeStep_line pats l k e h) (splitNl content) 1 m

/-- Witness for C2 at concrete inputs: the functions extractor on a
two-function javascript file, and the pattern loop committing to the
matching pattern. -/
theorem stateless_first_match_per_line_witness :
    (("functions" : String) ∈ statelessTypes ∧
      (extractByType "functions" (("function a() \x7b\nfunction b() \x7b").data)
        "javascript").countP (fun e => e.line = 1) ≤ 1) ∧
    ((∀ q ∈ ([reStartSlash] : List RE), reFind q (("// x").data) = none) ∧
      (reFind reSingleSlash (("// x").data)).isSome = true ∧
      firstMatch ([reStartSlash] ++ reSingleSlash :: []) (("// x").data) =
        reFind reSingleSlash (("// x").data)) ∧
    (firstMatch jsFunctionPats (("no match here").data) = none ↔
      ∀ p ∈ jsFunctionPats, reFind p (("no match here").data) = none) :=
  ⟨⟨by decide, stateless_first_match_per_line.1 "functions" (by decide) _ _ 1⟩,
    ⟨by decide, by decide,
      stateless_first_match_per_line.2.1 [reStartSlash] reSingleSlash []
        (("// x").data) (by decide) (by decide)⟩,
    stateless_first_match_per_line.2.2 jsFunctionPats
      (("no match here").data)⟩

/-- Counterexample to C2 as stated: in the comments extractor a single line
holding both a single-line comment and a one-line block contributes two
elements, so not every extractor takes only one (first) pattern per line. -/
theorem extractComments_two_elements_one_line :
    (extractComments (("// a /* b */").data) "javascript").countP
      (fun e => e.line = 1) = 2 := by
  decide

theorem lineScan_mem {f : Line → Nat → Option ExtractedElement} :
    ∀ (lines : List Line) (n i : Nat) (hi : i < lines.length)
      (e : ExtractedElement), f (lines.get ⟨i, hi⟩) (n + i) = some e →
      e ∈ lineScan f lines n := by
  intro lines
  induction lines with
  | nil => intro n i hi; cases hi
  | cons l rest ih =>
    intro n i hi e he
    cases i with
    | zero =>
      rw [lineScan]
      simp only [List.get] at he
      rw [Nat.add_zero] at he
      rw [he]
      exact List.mem_cons_self e _
    | succ j =>
      have hj : j < rest.length := Nat.lt_of_succ_lt_succ hi
      have he' : f (rest.get ⟨j, hj⟩) ((n + 1) + j) = some e := by
        have : n + (j + 1) = (n + 1) + j := by omega
        simpa [this] using he
      have hmem := ih (n + 1) j hj e he'
      rw [lineScan]
      cases f l n with
      | none => exact hmem
      | some e' => exact List.mem_cons_of_mem e' hmem

theorem importStep_eq (pats : List RE) (line : Line) (n : Nat) (cp : Caps)
    (h : firstMatch pats line = some cp) :
    importStep pats line n = some
      { type := "import",
        name := if jsGet cp 1 ≠ [] then jsGet cp 1
          else if jsGet cp 3 ≠ [] then jsGet cp 3 else trim line,
        line := n, content := trim line } := by
  unfold importStep
  rw [h]
  by_cases h1 : jsGet cp 1 = [] <;> by_cases h3 : jsGet cp 3 = [] <;>
    simp [h1, h3]

/-- Claim C3 (amended).  In `extractImports` a matched line is always
emitted: whenever some import pattern matches the i-th line of the input,
the result contains an element at 1-based line i+1 whose content is the
trimmed line, and whose name falls back to the full trimmed line text when
neither capture group 1 nor capture group 3 is populated.  The claim's
universal version over every extractor is false: `extractFunctions`,
`extractClasses` and `extractVariables` silently drop a matched line when
the derived name is empty (see the counterexample). -/
theorem extractImports_matched_line_fallback
    (lang : String) (pats : List RE) (content : Line) (i : Nat)
    (hi : i < (splitNl content).length) (cp : Caps)
    (hpat : importPatterns lang = some pats)
    (hfm : firstMatch pats ((splitNl content).get ⟨i, hi⟩) = some cp) :
    ∃ e ∈ extractImports content lang, e.line = i + 1 ∧
      e.content = trim ((splitNl content).get ⟨i, hi⟩) ∧
      (jsGet cp 1 = [] → jsGet cp 3 = [] →
        e.name = trim ((splitNl content).get ⟨i, hi⟩)) := by
  unfold extractImports
  rw [hpat]
  refine ⟨{ type := "import",
            name := if jsGet cp 1 ≠ [] then jsGet cp 1
              else if jsGet cp 3 ≠ [] then jsGet cp 3
              else trim ((splitNl content).get ⟨i, hi⟩),
            line := 1 + i,
            content := trim ((splitNl content).get ⟨i, hi⟩) }, ?_, ?_, ?_, ?_⟩
  · exact lineScan_mem (splitNl content) 1 i hi _
      (importStep_eq pats ((splitNl content).get ⟨i, hi⟩) (1 + i) cp hfm)
  · show 1 + i = i + 1
    omega
  · rfl
  · intro h1 h3
    show (if jsGet cp 1 ≠ [] then _ else _) = _
    simp [h1, h3]

/-- Witness for C3 at a concrete input: the go line `import ()` matches the
block pattern, which has no capture groups, so the emitted element's name is
the trimmed line itself. -/
theorem extractImports_matched_line_fallback_witness :
    ∃ e ∈ extractImports (("import ()").data) "go", e.line = 0 + 1 ∧
      e.content = trim ((splitNl (("import ()").data)).get ⟨0, by decide⟩) ∧
      (jsGet ([] : Caps) 1 = [] → jsGet ([] : Caps) 3 = [] →
        e.name = trim ((splitNl (("import ()").data)).get ⟨0, by decide⟩)) :=
  extractImports_matched_line_fallback "go" goImportPats
    (("import ()").data) 0 (by decide) [] (by rfl) (by decide)

/-- Counterexample to C3 as stated: the javascript line
`function function() \x7b` matches the first function pattern, but the name
derivation rejects the captured word `function` and no other group is
populated, so the matched line is silently dropped instead of falling back
to the trimmed line text. -/
theorem extractFunctions_drops_matched_line :
    (jsFunctionPats.any
      (fun p => (reFind p (("function function() \x7b").data)).isSome))
        = true ∧
    extractFunctions (("function function() \x7b").data) "javascript"
      = [] := by
  decide

theorem lineScan_eq_nil {f : Line → Nat → Option ExtractedElement} :
    ∀ (lines : List Line), (∀ l ∈ lines, ∀ n, f l n = none) →
      ∀ n, lineScan f lines n = [] := by
  intro lines
  induction lines with
  | nil => intro _ n; rw [lineScan]
  | cons l rest ih =>
    intro h n
    rw [lineScan, h l (List.mem_cons_self l rest) n]
    exact ih (fun x hx => h x (List.mem_cons_of_mem l hx)) (n + 1)

theorem importStep_none {pats : List RE} {line : Line}
    (h : firstMatch pats line = none) (n : Nat) :
    importStep pats line n = none := by
  unfold importStep
  rw [h]

/-- Claim C10.  For go, `extractImports` tests each pattern against one line
at a time, so a parenthesized import block whose `import (` header and `)`
closer sit on different lines yields no element at all — the header and the
closer match neither go pattern on their own, and any interior line not
containing the word `import` matches neither, since both patterns begin
with the literal `import`. -/
theorem go_import_block_yields_nothing (inner : List Line)
    (h : ∀ l ∈ inner,
      containsSub ("import".data) l = false ∧ noNl l = true) :
    extractImports (joinNl (("import (").data :: inner ++ [(")").data]))
      "go" = [] := by
  unfold extractImports
  show lineScan (importStep goImportPats)
    (splitNl (joinNl (("import (").data :: inner ++ [(")").data]))) 1 = []
  rw [splitNl_joinNl (by simp) ?_]
  · refine lineScan_eq_nil _ ?_ 1
    intro l hl n
    rcases List.mem_cons.mp hl with rfl | hl
    · exact importStep_none (by decide) n
    rcases List.mem_append.mp hl with hl | hl
    · refine importStep_none ((firstMatch_none_iff goImportPats l).mpr ?_) n
      intro p hp
      have hps : p = goImportPats.get ⟨0, by decide⟩ ∨
          p = goImportPats.get ⟨1, by decide⟩ := by
        simpa [goImportPats] using hp
      rcases hps with rfl | rfl
      · exact reFindGo_strThen_none _ none (h l hl).1
      · exact reFindGo_strThen_none _ none (h l hl).1
    · rcases List.mem_singleton.mp hl with rfl
      exact importStep_none (by decide) n
  · intro l hl
    rcases List.mem_cons.mp hl with rfl | hl
    · decide
    rcases List.mem_append.mp hl with hl | hl
    · exact (h l hl).2
    · rcases List.mem_singleton.mp hl with rfl
      decide

/-- Witness for C10: a two-package go import block spanning four lines
yields no import elements. -/
theorem go_import_block_yields_nothing_witness :
    extractImports (joinNl [("import (").data, ("\t\"fmt\"").data,
      ("\t\"os\"").data, (")").data]) "go" = [] :=
  go_import_block_yields_nothing [("\t\"fmt\"").data, ("\t\"os\"").data]
    (by decide)

/-- Claim C5.  Language detection is a pure function of the lowercased file
extension: paths with the same lowercased extension detect identically, the
mapping agrees with the specification's table (`.js/.jsx → javascript`,
`.ts/.tsx → typescript`, `.py → python`, `.java → java`, `.go → go`, other
→ `none`), an explicit language parameter always wins, and with no
parameter the chosen language is the detected one, falling back to
`javascript` when detection yields `none`. -/
theorem detect_language_mapping_and_fallback :
    (∀ p q : Line, lowerExt p = lowerExt q →
      detectLanguage p = detectLanguage q) ∧
    (∀ p : Line, detectLanguage p = detectLanguageSpec p) ∧
    (∀ (l : String) (p : Line), chooseLanguage (some l) p = l) ∧
    (∀ p : Line, chooseLanguage none p = (detectLanguage p).getD
      "javascript") := by
  refine ⟨?_, ?_, fun l p => rfl, ?_⟩
  · intro p q h
    unfold detectLanguage
    rw [h]
  · intro p
    unfold detectLanguage detectLanguageSpec
    by_cases h1 : lowerExt p = ".js".data
    · simp only [h1]; decide
    by_cases h2 : lowerExt p = ".jsx".data
    · simp only [h2]; decide
    by_cases h3 : lowerExt p = ".ts".data
    · simp only [h3]; decide
    by_cases h4 : lowerExt p = ".tsx".data
    · simp only [h4]; decide
    by_cases h5 : lowerExt p = ".py".data
    · simp only [h5]; decide
    by_cases h6 : lowerExt p = ".java".data
    · simp only [h6]; decide
    by_cases h7 : lowerExt p = ".go".data
    · simp only [h7]; decide
    simp [h1, h2, h3, h4, h5, h6, h7]
  · intro p
    unfold chooseLanguage
    cases detectLanguage p <;> rfl

/-- Witness for C5: two spellings of a `.JS` path share a lowercased
extension and detect identically. -/
theorem detect_language_mapping_and_fallback_witness :
    (lowerExt (("a.JS").data) = lowerExt (("a.jS").data) ∧
      detectLanguage (("a.JS").data) = detectLanguage (("a.jS").data)) ∧
    detectLanguage (("a.txt").data) = detectLanguageSpec (("a.txt").data) ∧
    chooseLanguage (some "python") (("a.js").data) = "python" ∧
    chooseLanguage none (("a.txt").data) =
      (detectLanguage (("a.txt").data)).getD "javascript" :=
  ⟨⟨by decide, detect_language_mapping_and_fallback.1 (("a.JS").data)
      (("a.jS").data) (by decide)⟩,
    detect_language_mapping_and_fallback.2.1 (("a.txt").data),
    detect_language_mapping_and_fallback.2.2.1 "python" (("a.js").data),
    detect_language_mapping_and_fallback.2.2.2 (("a.txt").data)⟩

theorem filesOf_empty {params : ExtractToolParams}
    (hfile : params.file = none ∨ params.file = some [])
    (hfiles : params.files = none ∨ params.files = some []) :
    filesOf params = [] := by
  unfold filesOf
  rcases hfiles with hfiles | hfiles <;> rw [hfiles]
  · rcases hfile with hfile | hfile <;> rw [hfile]
    rfl

/-- Claim C6.  When neither `file` nor `files` carries a value (absent, an
empty-string `file`, or an empty `files` list), `execute` returns the
structured no-files error result — message and `INVALID_TOOL_PARAMS` error
kind — with an empty read trace, so no file read is ever attempted; the
value-level validator reports the same condition with a message. -/
theorem execute_no_files_error (params : ExtractToolParams) (env : Env)
    (hfile : params.file = none ∨ params.file = some [])
    (hfiles : params.files = none ∨ params.files = some []) :
    executeModel params env = (noFilesRes, []) ∧
    (executeModel params env).1.error =
      some ("No files specified for extraction".data,
        "INVALID_TOOL_PARAMS") ∧
    validateToolParamValues params =
      some ("Either ".data ++ '\'' :: "file".data ++ '\'' :: " or ".data ++
        '\'' :: "files".data ++ '\'' :: " parameter must be specified".data)
    := by
  have hmain : executeModel params env = (noFilesRes, []) := by
    unfold executeModel
    rw [filesOf_empty hfile hfiles]
    rfl
  refine ⟨hmain, by rw [hmain]; rfl, ?_⟩
  unfold validateToolParamValues
  rw [if_pos ⟨hfile, hfiles⟩]

/-- Witness for C6: a request with both parameters absent. -/
theorem execute_no_files_error_witness :
    executeModel
      { type := "comments", file := none, files := none, format := none,
        language := none, includeDocstrings := none,
        includeSignatures := none }
      { resolve := fun p => p, isWithinWorkspace := fun _ => true,
        readFile := fun _ =>
          { llmContent := [], returnDisplay := [], error := none,
            errorType := "" },
        makeRelative := fun p => p } = (noFilesRes, []) ∧
    (executeModel
      { type := "comments", file := none, files := none, format := none,
        language := none, includeDocstrings := none,
        includeSignatures := none }
      { resolve := fun p => p, isWithinWorkspace := fun _ => true,
        readFile := fun _ =>
          { llmContent := [], returnDisplay := [], error := none,
            errorType := "" },
        makeRelative := fun p => p }).1.error =
      some ("No files specified for extraction".data,
        "INVALID_TOOL_PARAMS") ∧
    validateToolParamValues
      { type := "comments", file := none, files := none, format := none,
        language := none, includeDocstrings := none,
        includeSignatures := none } =
      some ("Either ".data ++ '\'' :: "file".data ++ '\'' :: " or ".data ++
        '\'' :: "files".data ++ '\'' :: " parameter must be specified".data)
    :=
  execute_no_files_error _ _ (Or.inl rfl) (Or.inl rfl)

theorem summaryLoop_fold (rel : Line → Line) :
    ∀ (results : List PerFileResult) (n : Nat) (s : Line),
      (results.foldl (fun (acc : Nat × Line) r =>
        (acc.1 + r.2.length,
          acc.2 ++ rel r.1 ++ ": ".data ++ (Nat.repr r.2.length).data ++
            " elements\n".data)) (n, s)).1
        = n + (results.map (fun r => r.2.length)).sum := by
  intro results
  induction results with
  | nil => intro n s; simp
  | cons r rest ih =>
    intro n s
    rw [List.foldl_cons, List.map_cons, List.sum_cons]
    rw [ih]
    omega

theorem summaryLoop_fst (rel : Line → Line) (results : List PerFileResult) :
    (summaryLoop rel results).1 = (results.map (fun r => r.2.length)).sum
    := by
  unfold summaryLoop
  rw [summaryLoop_fold rel results 0 []]
  omega

/-- Claim C8.  The total reported by the summary format's leading line
equals the sum of the per-file element counts printed on the subsequent
lines: the accumulated total is the sum of the element-list lengths, and
the rendered output is the `Total elements extracted:` header carrying that
sum followed by the per-file count lines. -/
theorem summary_total_eq_sum (rel : Line → Line)
    (results : List PerFileResult) :
    (summaryLoop rel results).1 = (results.map (fun r => r.2.length)).sum ∧
    formatAsSummary rel results =
      trim ("Total elements extracted: ".data ++
        (Nat.repr ((results.map (fun r => r.2.length)).sum)).data ++
        "\n\n".data ++ (summaryLoop rel results).2) := by
  refine ⟨summaryLoop_fst rel results, ?_⟩
  unfold formatAsSummary
  rw [summaryLoop_fst rel results]

theorem readFiles_include_flags (env : Env) (p : ExtractToolParams)
    (a b a' b' : Option Bool) :
    ∀ fps : List Line,
      readFiles env
        { p with includeDocstrings := a, includeSignatures := b } fps =
      readFiles env
        { p with includeDocstrings := a', includeSignatures := b' } fps := by
  intro fps
  induction fps with
  | nil => rfl
  | cons fp rest ih =>
    rw [readFiles, readFiles]
    cases (env.readFile fp).error with
    | some msg => rfl
    | none =>
      rw [ih]

/-- Claim C9.  The `includeDocstrings` and `includeSignatures` parameters
are no-ops: two runs of `execute` on otherwise identical parameters and
environment that differ only in those two fields return the same result
(same content, display, error and read trace), and the parameter-value
validator treats them identically too. -/
theorem include_flags_no_op (p : ExtractToolParams) (env : Env)
    (a b a' b' : Option Bool) :
    executeModel
      { p with includeDocstrings := a, includeSignatures := b } env =
    executeModel
      { p with includeDocstrings := a', includeSignatures := b' } env ∧
    validateToolParamValues
      { p with includeDocstrings := a, includeSignatures := b } =
    validateToolParamValues
      { p with includeDocstrings := a', includeSignatures := b' } := by
  refine ⟨?_, rfl⟩
  unfold executeModel
  have hrf := readFiles_include_flags env p a b a' b'
  simp only [hrf]
  rfl
